import Mathlib

/-!
# Verification of the telemetry producer/consumer repository

Shallow embedding of the length-prefixed framing protocol, the JSON
payload codec, the per-connection handler of `src/consumer_tcp.py`, the
reconnecting client of `src/producer_periodic.py`, the SSE broadcast of
`src/consumer_tcp_threaded.py`, and the enrichment functions of
`src/consumer_tcp.py` and `src/tcp/consumer.py`.

Bytes are modelled as `Nat` (< 256 where relevant), byte streams as lists
of non-empty chunks (each `recv` call yields a prefix of the head chunk,
and an empty result means end-of-stream, as for a closed socket).
Strings are lists of `Char` (Unicode scalar values, as Python `str`
without lone surrogates).  JSON numbers are modelled as integers;
floating-point payloads are outside the model.
-/

/-- Characters of a Python string. -/
abbrev JStr := List Char

/-- JSON values, as produced by `json.loads` / accepted by `json.dumps`.
Numbers are restricted to integers; objects are ordered key/value lists
(Python dicts preserve insertion order). -/
inductive Json where
  | null
  | bool (b : Bool)
  | num (n : Int)
  | str (s : JStr)
  | arr (xs : List Json)
  | obj (kvs : List (JStr × Json))

instance : Inhabited Json := ⟨Json.null⟩

/-- JSON whitespace (space, tab, line feed, carriage return). -/
def isJsonWs (c : Char) : Bool :=
  c.toNat = 32 || c.toNat = 9 || c.toNat = 10 || c.toNat = 13

/-- ASCII decimal digit. -/
def isDigitC (c : Char) : Bool :=
  48 ≤ c.toNat && c.toNat ≤ 57

/-- The decimal digit character for `d < 10`. -/
def digitChar (d : Nat) : Char := Char.ofNat (48 + d)

/-- Numeric value of a decimal digit character. -/
def digitVal (c : Char) : Nat := c.toNat - 48

/-- Decimal digits of `n`, most significant first (Python `str` of a
non-negative int). -/
def natDec (n : Nat) : JStr :=
  if n < 10 then [digitChar n]
  else natDec (n / 10) ++ [digitChar (n % 10)]
  decreasing_by exact Nat.div_lt_self (by omega) (by omega)

/-- Python `str` of an int (decimal, `-` sign for negatives). -/
def intDec : Int → JStr
  | .ofNat n => natDec n
  | .negSucc n => '-' :: natDec (n + 1)

/-- Lower-case hex digit character for `d < 16`. -/
def hexDigit (d : Nat) : Char :=
  if d < 10 then digitChar d else Char.ofNat (87 + d)

/-- Four lower-case hex digits of `n < 0x10000`, as in a `\uXXXX` escape. -/
def hex4 (n : Nat) : JStr :=
  [hexDigit (n / 4096 % 16), hexDigit (n / 256 % 16),
   hexDigit (n / 16 % 16), hexDigit (n % 16)]

/-- Escape one character as Python `json.dumps` does with the default
`ensure_ascii=True`: short escapes for `"`, `\`, and the common control
characters, `\uXXXX` for other non-printable or non-ASCII characters,
surrogate pairs for code points above `0xFFFF`. -/
def escapeChar (c : Char) : JStr :=
  if c.toNat = 34 then ['\\', '"']
  else if c.toNat = 92 then ['\\', '\\']
  else if c.toNat = 10 then ['\\', 'n']
  else if c.toNat = 13 then ['\\', 'r']
  else if c.toNat = 9 then ['\\', 't']
  else if c.toNat = 8 then ['\\', 'b']
  else if c.toNat = 12 then ['\\', 'f']
  else if 32 ≤ c.toNat && c.toNat ≤ 126 then [c]
  else if c.toNat < 65536 then '\\' :: 'u' :: hex4 c.toNat
  else
    ('\\' :: 'u' :: hex4 (0xd800 + (c.toNat - 0x10000) / 0x400)) ++
    ('\\' :: 'u' :: hex4 (0xdc00 + (c.toNat - 0x10000) % 0x400))

/-- Escape every character of a string body. -/
def escStr : JStr → JStr
  | [] => []
  | c :: cs => escapeChar c ++ escStr cs

/-- Serialize a JSON string with surrounding quotes. -/
def dumpString (s : JStr) : JStr := '"' :: escStr s ++ ['"']

mutual
/-- Python `json.dumps` with default options (separators `", "` and
`": "`, `ensure_ascii=True`), restricted to integer numbers. -/
def dumps : Json → JStr
  | .null => "null".toList
  | .bool true => "true".toList
  | .bool false => "false".toList
  | .num n => intDec n
  | .str s => dumpString s
  | .arr [] => "[]".toList
  | .arr (x :: xs) => '[' :: (dumps x ++ dumpsElems xs ++ [']'])
  | .obj [] => "{}".toList
  | .obj (kv :: kvs) => '{' :: (dumpMember kv ++ dumpsMembers kvs ++ ['}'])

/-- Remaining array elements, each preceded by `", "`. -/
def dumpsElems : List Json → JStr
  | [] => []
  | x :: xs => ',' :: ' ' :: (dumps x ++ dumpsElems xs)

/-- One object member `"key": value`. -/
def dumpMember : JStr × Json → JStr
  | (k, v) => dumpString k ++ ':' :: ' ' :: dumps v

/-- Remaining object members, each preceded by `", "`. -/
def dumpsMembers : List (JStr × Json) → JStr
  | [] => []
  | kv :: kvs => ',' :: ' ' :: (dumpMember kv ++ dumpsMembers kvs)
end

/-- Drop leading JSON whitespace. -/
def skipWs : JStr → JStr
  | [] => []
  | c :: cs => if isJsonWs c then skipWs cs else c :: cs

/-- Expect the literal characters `lit` at the head of the input and
return the remainder. -/
def stripLit : JStr → JStr → Option JStr
  | [], cs => some cs
  | _ :: _, [] => none
  | l :: ls, c :: cs => if c = l then stripLit ls cs else none

/-- Longest digit run at the head of the input, with the remainder. -/
def spanDigits : JStr → JStr × JStr
  | [] => ([], [])
  | c :: cs =>
    if isDigitC c then
      let (ds, r) := spanDigits cs
      (c :: ds, r)
    else ([], c :: cs)

/-- Value of a decimal digit string, most significant first. -/
def digitsToNat (ds : JStr) : Nat :=
  ds.foldl (fun a c => a * 10 + digitVal c) 0

/-- Value of a hex digit character (both cases), if any. -/
def parseHexDigit (c : Char) : Option Nat :=
  let v := c.toNat
  if 48 ≤ v && v ≤ 57 then some (v - 48)
  else if 97 ≤ v && v ≤ 102 then some (v - 87)
  else if 65 ≤ v && v ≤ 70 then some (v - 55)
  else none

/-- Four hex digits, as after `\u`. -/
def parseHex4 : JStr → Option (Nat × JStr)
  | a :: b :: c :: d :: rest =>
    match parseHexDigit a, parseHexDigit b, parseHexDigit c, parseHexDigit d with
    | some x, some y, some z, some w => some (((x * 16 + y) * 16 + z) * 16 + w, rest)
    | _, _, _, _ => none
  | _ => none

/-- Character for a Unicode scalar value; `none` on surrogates or
out-of-range code points (which Python's decoders reject). -/
def mkChar (n : Nat) : Option Char :=
  if n.isValidChar then some (Char.ofNat n) else none

/-- The single-character JSON escapes. -/
def escMap (c : Char) : Option Char :=
  if c = '"' then some '"'
  else if c = '\\' then some '\\'
  else if c = '/' then some '/'
  else if c = 'n' then some '\n'
  else if c = 't' then some '\t'
  else if c = 'r' then some '\r'
  else if c = 'b' then some (Char.ofNat 8)
  else if c = 'f' then some (Char.ofNat 12)
  else none

/-- Decode the characters following a backslash: one character for the
short escapes, `\uXXXX` (combining surrogate pairs) for the rest, as
`json.loads` does.  Returns the decoded character and the remainder. -/
def parseEscape : JStr → Option (Char × JStr)
  | [] => none
  | e :: r2 =>
    if e = 'u' then
      match r2 with
      | a :: b :: c2 :: d :: r3 =>
        match parseHex4 (a :: b :: c2 :: d :: []) with
        | some (n, _) =>
          if 0xd800 ≤ n && n ≤ 0xdbff then
            match r3 with
            | x :: y :: r4 =>
              if x = '\\' && y = 'u' then
                match r4 with
                | a2 :: b2 :: c3 :: d2 :: r5 =>
                  match parseHex4 (a2 :: b2 :: c3 :: d2 :: []) with
                  | some (m, _) =>
                    if 0xdc00 ≤ m && m ≤ 0xdfff then
                      (mkChar ((n - 0xd800) * 0x400 + (m - 0xdc00) + 0x10000)).map
                        (fun ch => (ch, r5))
                    else none
                  | none => none
                | _ => none
              else none
            | _ => none
          else (mkChar n).map (fun ch => (ch, r3))
        | none => none
      | _ => none
    else (escMap e).map (fun ch => (ch, r2))

set_option maxRecDepth 8192 in
/-- Parse a JSON string body up to and including the closing quote,
decoding escapes as `json.loads` does. -/
def parseStringBody : JStr → Option (JStr × JStr)
  | [] => none
  | c :: rest =>
    if c = '"' then some ([], rest)
    else if c = '\\' then
      match he : parseEscape rest with
      | none => none
      | some (ch, r2) =>
        match parseStringBody r2 with
        | some (s, r3) => some (ch :: s, r3)
        | none => none
    else
      match parseStringBody rest with
      | some (s, r2) => some (c :: s, r2)
      | none => none
  termination_by cs => cs.length
  decreasing_by
  · have shrink : ∀ rest ch r2, parseEscape rest = some (ch, r2) →
        List.length r2 < List.length rest := by
      intro rest ch r2 h
      unfold parseEscape at h
      repeat' split at h
      all_goals first
        | (rcases Option.map_eq_some'.mp h with ⟨c', hc', heq⟩;
           simp only [Prod.mk.injEq] at heq;
           rcases heq with ⟨h1, h2⟩; subst h2; simp_arith)
        | simp at h
    have := shrink _ _ _ he
    simp only [List.length_cons]
    omega
  · simp_arith

/-- Insert into an ordered key/value list as Python dict assignment does:
replace the value in place if the key exists, else append. -/
def insertKey : List (JStr × Json) → JStr → Json → List (JStr × Json)
  | [], k, v => [(k, v)]
  | kv :: rest, k, v =>
    if kv.1 = k then (kv.1, v) :: rest else kv :: insertKey rest k v

mutual
/-- Parse one JSON value (fuel-indexed recursion; `loads` supplies
enough fuel for any input). Mirrors Python `json.loads` on the grammar
`json.dumps` can emit, with numbers restricted to integers. -/
def parseVal : Nat → JStr → Option (Json × JStr)
  | 0, _ => none
  | fuel + 1, cs =>
    match skipWs cs with
    | [] => none
    | c :: rest =>
      if c = 'n' then (stripLit "ull".toList rest).map (fun r => (Json.null, r))
      else if c = 't' then (stripLit "rue".toList rest).map (fun r => (Json.bool true, r))
      else if c = 'f' then (stripLit "alse".toList rest).map (fun r => (Json.bool false, r))
      else if c = '"' then (parseStringBody rest).map (fun p => (Json.str p.1, p.2))
      else if c = '-' then
        match spanDigits rest with
        | ([], _) => none
        | (ds, r) => some (Json.num (-(digitsToNat ds : Int)), r)
      else if isDigitC c then
        let (ds, r) := spanDigits (c :: rest)
        some (Json.num (digitsToNat ds : Int), r)
      else if c = '[' then
        match skipWs rest with
        | [] => none
        | c2 :: r =>
          if c2 = ']' then some (Json.arr [], r)
          else (parseElems fuel (c2 :: r)).map (fun p => (Json.arr p.1, p.2))
      else if c = '{' then
        match skipWs rest with
        | [] => none
        | c2 :: r =>
          if c2 = '}' then some (Json.obj [], r)
          else (parseMembers fuel [] (c2 :: r)).map (fun p => (Json.obj p.1, p.2))
      else none

/-- Parse the elements of a non-empty array, up to and including `]`. -/
def parseElems : Nat → JStr → Option (List Json × JStr)
  | 0, _ => none
  | fuel + 1, cs =>
    match parseVal fuel cs with
    | none => none
    | some (v, r) =>
      match skipWs r with
      | [] => none
      | c2 :: r2 =>
        if c2 = ',' then
          match parseElems fuel (skipWs r2) with
          | some (vs, r3) => some (v :: vs, r3)
          | none => none
        else if c2 = ']' then some ([v], r2)
        else none

/-- Parse the members of a non-empty object, up to and including `}`,
building the dict by repeated key insertion as Python does. -/
def parseMembers : Nat → List (JStr × Json) → JStr → Option (List (JStr × Json) × JStr)
  | 0, _, _ => none
  | fuel + 1, acc, cs =>
    match cs with
    | [] => none
    | c0 :: r =>
      if c0 = '"' then
        match parseStringBody r with
        | none => none
        | some (k, r2) =>
          match skipWs r2 with
          | [] => none
          | c1 :: r3 =>
            if c1 = ':' then
              match parseVal fuel (skipWs r3) with
              | none => none
              | some (v, r4) =>
                match skipWs r4 with
                | [] => none
                | c2 :: r5 =>
                  if c2 = ',' then parseMembers fuel (insertKey acc k v) (skipWs r5)
                  else if c2 = '}' then some (insertKey acc k v, r5)
                  else none
            else none
      else none
end

/-- Python `json.loads`: parse one value, then require only trailing
whitespace. -/
def loads (cs : JStr) : Option Json :=
  match parseVal cs.length cs with
  | some (v, rest) => if skipWs rest = [] then some v else none
  | none => none

/-- No duplicate keys (Python dicts cannot hold duplicates). -/
def nodupKeysB : List JStr → Bool
  | [] => true
  | k :: ks => !(ks.contains k) && nodupKeysB ks

mutual
/-- A JSON value that a Python object can denote: every object has
pairwise distinct keys. -/
def Json.valid : Json → Bool
  | .null => true
  | .bool _ => true
  | .num _ => true
  | .str _ => true
  | .arr xs => validList xs
  | .obj kvs => nodupKeysB (kvs.map Prod.fst) && validMembers kvs

/-- Validity of every element. -/
def validList : List Json → Bool
  | [] => true
  | x :: xs => x.valid && validList xs

/-- Validity of every member value. -/
def validMembers : List (JStr × Json) → Bool
  | [] => true
  | kv :: kvs => kv.2.valid && validMembers kvs
end

mutual
/-- Fuel needed by `parseVal` to parse the serialization of a value. -/
def fsize : Json → Nat
  | .null => 1
  | .bool _ => 1
  | .num _ => 1
  | .str _ => 1
  | .arr [] => 1
  | .arr (x :: xs) => 1 + felems (x :: xs)
  | .obj [] => 1
  | .obj (kv :: kvs) => 1 + fmembers (kv :: kvs)

/-- Fuel needed by `parseElems` for a serialized element list. -/
def felems : List Json → Nat
  | [] => 1
  | x :: xs => 1 + max (fsize x) (felems xs)

/-- Fuel needed by `parseMembers` for a serialized member list. -/
def fmembers : List (JStr × Json) → Nat
  | [] => 1
  | kv :: kvs => 1 + max (fsize kv.2) (fmembers kvs)
end

/-- UTF-8 encoding of one Unicode scalar value. -/
def utf8EncodeChar (c : Char) : List Nat :=
  if c.toNat < 0x80 then [c.toNat]
  else if c.toNat < 0x800 then [0xc0 + c.toNat / 64, 0x80 + c.toNat % 64]
  else if c.toNat < 0x10000 then
    [0xe0 + c.toNat / 4096, 0x80 + c.toNat / 64 % 64, 0x80 + c.toNat % 64]
  else
    [0xf0 + c.toNat / 0x40000, 0x80 + c.toNat / 4096 % 64,
     0x80 + c.toNat / 64 % 64, 0x80 + c.toNat % 64]

/-- UTF-8 encoding of a string (Python `str.encode("utf-8")`). -/
def utf8Encode : JStr → List Nat
  | [] => []
  | c :: cs => utf8EncodeChar c ++ utf8Encode cs

/-- Decode one UTF-8-encoded scalar value from the head of a byte
list, strictly: stray or missing continuation bytes, overlong forms,
surrogates and out-of-range code points are rejected. -/
def utf8DecodeChar : List Nat → Option (Char × List Nat)
  | [] => none
  | b :: bs =>
    if b < 0x80 then (mkChar b).map (fun c => (c, bs))
    else if b < 0xc2 then none
    else if b < 0xe0 then
      match bs with
      | b2 :: bs2 =>
        if 0x80 ≤ b2 && b2 < 0xc0 then
          (mkChar ((b - 0xc0) * 64 + (b2 - 0x80))).map (fun c => (c, bs2))
        else none
      | _ => none
    else if b < 0xf0 then
      match bs with
      | b2 :: b3 :: bs3 =>
        if (0x80 ≤ b2 && b2 < 0xc0) && (0x80 ≤ b3 && b3 < 0xc0) then
          if (b - 0xe0) * 4096 + (b2 - 0x80) * 64 + (b3 - 0x80) < 0x800 then none
          else
            (mkChar ((b - 0xe0) * 4096 + (b2 - 0x80) * 64 + (b3 - 0x80))).map
              (fun c => (c, bs3))
        else none
      | _ => none
    else if b < 0xf5 then
      match bs with
      | b2 :: b3 :: b4 :: bs4 =>
        if (0x80 ≤ b2 && b2 < 0xc0) && ((0x80 ≤ b3 && b3 < 0xc0) && (0x80 ≤ b4 && b4 < 0xc0)) then
          if (b - 0xf0) * 0x40000 + (b2 - 0x80) * 4096 + (b3 - 0x80) * 64 + (b4 - 0x80) <
              0x10000 then none
          else
            (mkChar ((b - 0xf0) * 0x40000 + (b2 - 0x80) * 4096 + (b3 - 0x80) * 64 +
              (b4 - 0x80))).map (fun c => (c, bs4))
        else none
      | _ => none
    else none

/-- Strict UTF-8 decoding of a whole byte string
(Python `bytes.decode("utf-8")`). -/
def utf8Decode (bs : List Nat) : Option JStr :=
  match bs with
  | [] => some []
  | b :: rest =>
    match h : utf8DecodeChar (b :: rest) with
    | none => none
    | some (c, bs2) =>
      match utf8Decode bs2 with
      | some s => some (c :: s)
      | none => none
  termination_by bs.length
  decreasing_by
  · have shrink : ∀ bs c bs2, utf8DecodeChar bs = some (c, bs2) →
        List.length bs2 < List.length bs := by
      intro bs c bs2 hx
      unfold utf8DecodeChar at hx
      repeat' split at hx
      all_goals first
        | (rcases Option.map_eq_some'.mp hx with ⟨c', hc', heq⟩;
           simp only [Prod.mk.injEq] at heq;
           rcases heq with ⟨e1, e2⟩; subst e2; simp_arith)
        | simp at hx
    exact shrink _ _ _ h

/-- `json.loads(payload.decode("utf-8"))` as done by both decoders. -/
def loadsBytes (bs : List Nat) : Option Json :=
  (utf8Decode bs).bind loads

/-- The 4-byte big-endian header `struct.pack(">I", n)` for `n < 2^32`. -/
def beBytes (n : Nat) : List Nat :=
  [n / 16777216 % 256, n / 65536 % 256, n / 256 % 256, n % 256]

/-- `struct.unpack(">I", header)[0]` on a 4-byte header. -/
def beNat (bs : List Nat) : Nat :=
  bs.foldl (fun a b => a * 256 + b) 0

/-- `send_frame` (src/producer_periodic.py, lines 60-63) and equally
`send_response` (src/consumer_tcp.py, lines 82-85): serialize to UTF-8
JSON, prefix the 4-byte big-endian length.  `struct.pack(">I", ·)`
raises when the payload does not fit in 32 bits, hence `Option`. -/
def send_frame (o : Json) : Option (List Nat) :=
  let b := utf8Encode (dumps o)
  if b.length < 4294967296 then some (beBytes b.length ++ b) else none

/-- A byte stream: the chunks successive `sock.recv` calls yield.
Chunks are non-empty in any well-formed stream (`streamWF`); an
exhausted stream models a closed connection (`recv` returns `b""`). -/
abbrev ByteStream := List (List Nat)

/-- Every chunk a socket read yields is non-empty. -/
def streamWF (s : ByteStream) : Prop := ∀ c ∈ s, c ≠ []

/-- `sock.recv(n)`: yield at most `n` bytes from the head chunk, keep
the unconsumed remainder buffered; an empty result means EOF. -/
def recv : ByteStream → Nat → List Nat × ByteStream
  | [], _ => ([], [])
  | c :: cs, n =>
    let t := c.take n
    let d := c.drop n
    (t, if d.isEmpty then cs else d :: cs)

/-- `recv_exact` (src/consumer_tcp.py, lines 29-37): loop reading until
exactly `n` bytes are collected; `none` models the `ConnectionError`
raised when a read returns zero bytes first. -/
def recv_exact (s : ByteStream) (n : Nat) : Option (List Nat × ByteStream) :=
  if n = 0 then some ([], s)
  else
    match recv s n with
    | ([], _) => none
    | (b :: t, s') =>
      match recv_exact s' (n - (b :: t).length) with
      | none => none
      | some (rest, s'') => some ((b :: t) ++ rest, s'')
  termination_by n
  decreasing_by simp only [List.length_cons]; omega

/-- Result of reading one frame on the server side. -/
inductive SrvRead where
  | closed
  | truncated
  | frame (payload : List Nat)

/-- One iteration of the frame-decoding part of `handle_client`
(src/consumer_tcp.py, lines 42-53): read up to 4 header bytes; an empty
first read is a clean close; complete the header with `recv_exact`,
unpack the big-endian length, then read exactly that many payload
bytes.  `truncated` models the `ConnectionError` raised by
`recv_exact`, which terminates the connection. -/
def readFrameServer (s : ByteStream) : SrvRead × ByteStream :=
  let (header, s1) := recv s 4
  if header = [] then (.closed, s1)
  else
    match (if header.length < 4 then recv_exact s1 (4 - header.length) else some ([], s1)) with
    | none => (.truncated, s1)
    | some (extra, s2) =>
      let msglen := beNat (header ++ extra)
      match recv_exact s2 msglen with
      | none => (.truncated, s2)
      | some (payload, s3) => (.frame payload, s3)

/-- Errors `recv_frame` can raise. -/
inductive ClientErr where
  | connClosed
  | structError
  | truncated
  | jsonError
  deriving DecidableEq

/-- `recv_frame` (src/producer_periodic.py, lines 65-80): read up to 4
header bytes; if short, perform ONE more read of the missing count (no
loop); `struct.unpack` then fails unless exactly 4 bytes were obtained.
The payload read does loop until `msglen` bytes arrive.  Finally the
payload is parsed as UTF-8 JSON. -/
def recv_frame (s : ByteStream) : Except ClientErr (Json × ByteStream) :=
  let (header, s1) := recv s 4
  if header = [] then .error .connClosed
  else
    let (header2, s2) :=
      if header.length < 4 then
        let (more, s') := recv s1 (4 - header.length)
        (header ++ more, s')
      else (header, s1)
    if header2.length = 4 then
      let msglen := beNat header2
      match recv_exact s2 msglen with
      | none => .error .truncated
      | some (payload, s3) =>
        match loadsBytes payload with
        | none => .error .jsonError
        | some j => .ok (j, s3)
    else .error .structError

/-- Python `k.startswith("gen_")`. -/
def isGen (k : JStr) : Bool :=
  match k with
  | 'g' :: 'e' :: 'n' :: '_' :: _ => true
  | _ => false

/-- The summary `{"numeric_count": …, "numeric_sum": …, "numeric_avg": …}`
computed by both enrichment functions.  Sums and averages live in `ℚ`
(exact arithmetic over the integer-valued payloads of the model). -/
structure ProcResult where
  numeric_count : Nat
  numeric_sum : Rat
  numeric_avg : Option Rat
  deriving DecidableEq

namespace ConsumerTcp

/-- `isinstance(v, (int, float))` on a document value; Python `bool` is
a subclass of `int`, so `True`/`False` count as `1`/`0`. -/
def numVal : Json → Option Rat
  | .num n => some (n : Rat)
  | .bool b => some (if b then 1 else 0)
  | _ => none

/-- `process_document` (src/consumer_tcp.py, lines 21-26): sum, count
and average the `int`/`float` instances among `gen_`-prefixed fields. -/
def process_document (kvs : List (JStr × Json)) : ProcResult :=
  let nums := kvs.filterMap (fun kv => if isGen kv.1 then numVal kv.2 else none)
  { numeric_count := nums.length
    numeric_sum := nums.sum
    numeric_avg := if nums.isEmpty then none else some (nums.sum / nums.length) }

end ConsumerTcp

namespace PollConsumer

/-- Whitespace that Python's `str.strip()` / `int()` / `float()` strip. -/
def isPyWs (c : Char) : Bool :=
  c.toNat = 32 || c.toNat = 9 || c.toNat = 10 || c.toNat = 13 ||
  c.toNat = 11 || c.toNat = 12

/-- Python `str.strip()`: drop whitespace from both ends. -/
def stripPy (s : JStr) : JStr :=
  ((s.dropWhile isPyWs).reverse.dropWhile isPyWs).reverse

/-- A digit run with single underscores strictly between digits — the
digit-group grammar Python's `int()` / `float()` accept within one part
of a numeric literal (`"1_0"` but not `"_1"`, `"1_"` or `"1__0"`),
continued after the first character. -/
def digitsUCore : JStr → Bool
  | [] => true
  | '_' :: c :: r => isDigitC c && digitsUCore r
  | '_' :: [] => false
  | c :: r => isDigitC c && digitsUCore r

/-- A non-empty underscore-grouped digit run: first character a digit,
underscores only between digits. -/
def digitsU : JStr → Bool
  | [] => false
  | c :: r => isDigitC c && digitsUCore r

/-- Remove the grouping underscores before reading the digits. -/
def stripUnd (s : JStr) : JStr := s.filter (fun c => c != '_')

/-- Split at the first `e`/`E`, the exponent marker of a float literal. -/
def splitAtExp : JStr → JStr × Option JStr
  | [] => ([], none)
  | c :: r =>
    if c = 'e' || c = 'E' then ([], some r)
    else
      let (m, e) := splitAtExp r
      (c :: m, e)

/-- Split at the first `.`, the point of a float literal. -/
def splitAtDot : JStr → JStr × Option JStr
  | [] => ([], none)
  | c :: r =>
    if c = '.' then ([], some r)
    else
      let (m, e) := splitAtDot r
      (c :: m, e)

/-- Exact value of the mantissa `ip.fp` (either part may be empty). -/
def mantVal (ip fp : JStr) : Rat :=
  (digitsToNat (stripUnd ip) : Rat) +
    (digitsToNat (stripUnd fp) : Rat) / (10 : Rat) ^ (stripUnd fp).length

/-- Python `int(string)`: strip whitespace, an optional sign, then a
non-empty underscore-grouped decimal digit run (`int("1_0") == 10`).
Non-ASCII decimal digits, which CPython also accepts, are outside this
model's character treatment. -/
def pyInt (s : JStr) : Option Int :=
  match stripPy s with
  | '+' :: ds => if digitsU ds then some (digitsToNat (stripUnd ds) : Int) else none
  | '-' :: ds => if digitsU ds then some (-(digitsToNat (stripUnd ds) : Int)) else none
  | ds => if digitsU ds then some (digitsToNat (stripUnd ds) : Int) else none

/-- Python `float(string)` on decimal and scientific literals, in exact
rational arithmetic: an optional sign, underscore-grouped digit runs, an
optional point with at least one digit on one side, and an optional
`e`/`E` exponent with signed underscore-grouped digits
(`float("1.5e3") == 1500.0`, `float(".5e-1") == 0.05`).  The forms
`inf`/`infinity`/`nan` (any case), which CPython converts to IEEE
special values, have no image in this model's exact-rational value
domain and yield `none`, as do non-ASCII digit forms; the theorems below
never range over such strings. -/
def pyFloat (s : JStr) : Option Rat :=
  let t := stripPy s
  let (sign, body) :=
    match t with
    | '+' :: r => ((1 : Rat), r)
    | '-' :: r => ((-1 : Rat), r)
    | r => ((1 : Rat), r)
  let (mant, eo) := splitAtExp body
  let (ip, fo) := splitAtDot mant
  let fp := fo.getD []
  let mok :=
    match fo with
    | none => digitsU ip
    | some f => (ip.isEmpty || digitsU ip) && (f.isEmpty || digitsU f) &&
        !(ip.isEmpty && f.isEmpty)
  match eo with
  | none => if mok then some (sign * mantVal ip fp) else none
  | some e =>
    match e with
    | '+' :: d =>
      if mok && digitsU d then
        some (sign * mantVal ip fp * (10 : Rat) ^ digitsToNat (stripUnd d))
      else none
    | '-' :: d =>
      if mok && digitsU d then
        some (sign * mantVal ip fp / (10 : Rat) ^ digitsToNat (stripUnd d))
      else none
    | d =>
      if mok && digitsU d then
        some (sign * mantVal ip fp * (10 : Rat) ^ digitsToNat (stripUnd d))
      else none

/-- `to_number` (src/tcp/consumer.py, lines 22-36): pass numbers (and
bools) through, map `None` and blank strings to `None`, parse strings
containing `.` with `float`, other strings with `int` falling back to
`float`; anything else is not numeric. -/
def to_number : Json → Option Rat
  | .num n => some (n : Rat)
  | .bool b => some (if b then 1 else 0)
  | .null => none
  | .str s =>
    if stripPy s = [] then none
    else if s.contains '.' then pyFloat s
    else
      match pyInt s with
      | some n => some (n : Rat)
      | none => pyFloat s
  | .arr _ => none
  | .obj _ => none

/-- `process_document` (src/tcp/consumer.py, lines 38-51): like the TCP
consumer's, but coercing numeric strings through `to_number`. -/
def process_document (kvs : List (JStr × Json)) : ProcResult :=
  let nums := kvs.filterMap (fun kv => if isGen kv.1 then to_number kv.2 else none)
  { numeric_count := nums.length
    numeric_sum := nums.sum
    numeric_avg := if nums.isEmpty then none else some (nums.sum / nums.length) }

end PollConsumer

/-- Acknowledgement objects `handle_client` sends back. -/
inductive Ack where
  | ok (id : Nat)
  | err (reason : JStr)
  deriving DecidableEq

/-- `{"status": "error", "reason": "invalid json: …"}` (line 58). -/
def invalidJsonMsg : JStr := "invalid json".toList

/-- The `str(e)` reason of a storage-failure ack (line 73). -/
def storageErrMsg : JStr := "storage error".toList

/-- One stored document: Mongo-assigned id, the inserted document, and
the fields the follow-up `update_one` patches in. -/
structure StoreRec where
  rid : Nat
  doc : List (JStr × Json)
  processedAt : Option Nat
  procResult : Option ProcResult

/-- The storage collaborator: persisted records, the next identifier,
fault schedules injecting `pymongo` exceptions into successive
`insert_one` / `update_one` calls, and a logical clock standing in for
`datetime.utcnow()`. -/
structure Store where
  recs : List StoreRec
  nextId : Nat
  insertFaults : List Bool
  updateFaults : List Bool
  clock : Nat

/-- Modelled `db_coll.insert_one`: appends the document under a fresh
identifier, or raises (`none`) when the fault schedule says so. -/
def Store.insert_one (st : Store) (d : List (JStr × Json)) : Option Nat × Store :=
  let fail := st.insertFaults.headD false
  let st' := { st with insertFaults := st.insertFaults.tail }
  if fail then (none, st')
  else (some st.nextId,
    { st' with recs := st'.recs ++ [⟨st.nextId, d, none, none⟩], nextId := st.nextId + 1 })

/-- Modelled `db_coll.update_one` with the enrichment `$set` patch of
`handle_client` (line 70). -/
def Store.update_one (st : Store) (i : Nat) (pr : ProcResult) : Bool × Store :=
  let fail := st.updateFaults.headD false
  let st' := { st with updateFaults := st.updateFaults.tail }
  if fail then (false, st')
  else (true, { st' with
    recs := st'.recs.map (fun r =>
      if r.rid = i then { r with processedAt := some st.clock, procResult := some pr } else r)
    clock := st.clock + 1 })

/-- The key of the server-side ingestion timestamp. -/
def receivedAtKey : JStr := "_receivedAt".toList

/-- Lines 62-75 of `handle_client`: stamp `_receivedAt`, insert, run
`process_document`, update, and build the ack; any storage exception
becomes a `status=error` ack.  Returns `none` when the parsed payload
is not a JSON object — item assignment then raises a `TypeError` that
the loop does not catch, aborting the connection. -/
def handleDoc (st : Store) (j : Json) : Option (Ack × Store) :=
  match j with
  | .obj kvs =>
    let stamped := insertKey kvs receivedAtKey (.str (natDec st.clock))
    let st1 := { st with clock := st.clock + 1 }
    match st1.insert_one stamped with
    | (none, st2) => some (.err storageErrMsg, st2)
    | (some rid, st2) =>
      match st2.update_one rid (ConsumerTcp.process_document stamped) with
      | (false, st3) => some (.err storageErrMsg, st3)
      | (true, st3) => some (.ok rid, st3)
  | _ => none

/-- The `while True` loop of `handle_client` (src/consumer_tcp.py,
lines 42-80), fuel-bounded: read a frame (clean close and truncation
both end the loop), parse it (a parse failure is answered with an error
ack and the loop continues), then `handleDoc`.  Returns the acks sent,
in order, and the final storage state. -/
def handleLoop : Nat → ByteStream → Store → List Ack × Store
  | 0, _, st => ([], st)
  | fuel + 1, s, st =>
    match readFrameServer s with
    | (.closed, _) => ([], st)
    | (.truncated, _) => ([], st)
    | (.frame payload, s') =>
      match loadsBytes payload with
      | none =>
        let (acks, st') := handleLoop fuel s' st
        (.err invalidJsonMsg :: acks, st')
      | some j =>
        match handleDoc st j with
        | none => ([], st)
        | some (a, st2) =>
          let (acks, st') := handleLoop fuel s' st2
          (a :: acks, st')

namespace Producer

/-- Observable transport events of the producer's send loop. -/
inductive PEv where
  | send (i : Nat)
  | reconnect
  deriving DecidableEq

/-- One document's worth of `main`'s send loop
(src/producer_periodic.py, lines 158-177): try to send (and await the
ack); on `ConnectionError`/`OSError` close the socket, reconnect with
backoff, and retry that same document exactly once; a failure of the
retry abandons the document.  `faults` schedules which successive
attempts raise. -/
def sendSegment (i : Nat) (faults : List Bool) : List PEv × List Bool :=
  if faults.headD false then
    ([.send i, .reconnect, .send i], faults.tail.tail)
  else ([.send i], faults.tail)

/-- Transport events of sending documents `i, i+1, …, i+n-1`. -/
def sendTrace : Nat → Nat → List Bool → List PEv
  | _, 0, _ => []
  | i, n + 1, faults =>
    let (evs, r) := sendSegment i faults
    evs ++ sendTrace (i + 1) n r

/-- The successive sleep durations of `connect_with_backoff`
(src/producer_periodic.py, lines 93-107) over `j` consecutive
connection failures: sleep the current backoff, then double it capped
at `max_backoff`. -/
def backoffDelays : Nat → Rat → Rat → List Rat
  | 0, _, _ => []
  | j + 1, backoff, maxB => backoff :: backoffDelays j (min maxB (backoff * 2)) maxB

/-- The `max_backoff` parameter default (60.0); `main` never passes this
parameter, and `parse_args` offers no option for it. -/
def defaultMaxBackoff : Rat := 60

end Producer

namespace Threaded

/-- One subscriber's `queue.Queue` of pending SSE events. -/
structure Channel where
  cap : Nat
  buf : List JStr
  deriving DecidableEq

/-- The condition under which `put_nowait` raises `queue.Full`
(`maxsize <= 0` means unbounded in Python). -/
def Channel.isFull (ch : Channel) : Bool :=
  0 < ch.cap && ch.cap ≤ ch.buf.length

/-- `q.put_nowait(data_str)` with the `Full` exception swallowed, as in
`broadcast_to_clients`: a full queue drops the message. -/
def put_nowait (ch : Channel) (m : JStr) : Channel :=
  if ch.isFull then ch else { ch with buf := ch.buf ++ [m] }

/-- `broadcast_to_clients` (src/consumer_tcp_threaded.py, lines 50-58):
a non-blocking push of the message to every registered channel. -/
def broadcast_to_clients (m : JStr) (clients : List Channel) : List Channel :=
  clients.map (fun q => put_nowait q m)

/-- Registration performed by `sse_events` (line 85):
`queue.Queue(maxsize=200)` added to the client set. -/
def registerClient (clients : List Channel) : List Channel :=
  clients ++ [⟨200, []⟩]

/-- `k` fresh subscribers registered in sequence. -/
def registerK : Nat → List Channel
  | 0 => []
  | k + 1 => registerClient (registerK k)

end Threaded

/-- A single-chunk stream delivering `bs` whole (an empty payload is an
already-closed stream). -/
def oneChunk (bs : List Nat) : ByteStream :=
  if bs = [] then [] else [bs]

/-- A stream delivering `bs` one byte at a time. -/
def oneByteChunks (bs : List Nat) : ByteStream :=
  bs.map (fun b => [b])

/-- The frame enclosing a raw payload: 4-byte big-endian length prefix,
then the payload. -/
def frameRaw (p : List Nat) : List Nat :=
  beBytes p.length ++ p

/-- The concatenated frames of a batch of documents, as `send_frame`
emits them back to back. -/
def framesOf (docs : List Json) : List Nat :=
  match docs with
  | [] => []
  | d :: ds => frameRaw (utf8Encode (dumps d)) ++ framesOf ds

/-- A document the producer can send and the handler can store: a valid
JSON object whose encoding fits the 32-bit length prefix. -/
def wireDoc (d : Json) : Bool :=
  match d with
  | .obj _ => d.valid && decide ((utf8Encode (dumps d)).length < 4294967296)
  | _ => false

/-- The identifiers carried by the `ok` acks, in order. -/
def okIds (acks : List Ack) : List Nat :=
  acks.filterMap (fun a => match a with | .ok i => some i | .err _ => none)

/-- How many times document `i` is put on the wire in an event trace. -/
def countSends (i : Nat) : List Producer.PEv → Nat
  | [] => 0
  | .send j :: r => (if j = i then 1 else 0) + countSends i r
  | .reconnect :: r => countSends i r

/-- The input does not start with a digit (so a digit span stops there). -/
def noDigitHead : JStr → Prop
  | [] => True
  | c :: _ => isDigitC c = false

/-- Is the value a Python `str`? -/
def isStr : Json → Bool
  | .str _ => true
  | _ => false

/-! ## Digit, hex and character lemmas -/

theorem digitVal_digitChar : ∀ d, d < 10 → digitVal (digitChar d) = d := by decide

theorem isDigitC_digitChar : ∀ d, d < 10 → isDigitC (digitChar d) = true := by decide

theorem parseHexDigit_hexDigit : ∀ d, d < 16 → parseHexDigit (hexDigit d) = some d := by decide

theorem mkChar_toNat (c : Char) : mkChar c.toNat = some c := by
  have h : c.toNat.isValidChar := c.valid
  rw [mkChar, if_pos h, Char.ofNat_toNat]

theorem natDec_ne_nil (n : Nat) : natDec n ≠ [] := by
  rw [natDec]
  split <;> simp

theorem natDec_digits (n : Nat) : ∀ c ∈ natDec n, isDigitC c = true := by
  induction n using Nat.strong_induction_on with
  | _ n ih =>
    rw [natDec]
    split
    · next h =>
      intro c hc
      simp only [List.mem_singleton] at hc
      subst hc
      exact isDigitC_digitChar n h
    · next h =>
      intro c hc
      rcases List.mem_append.mp hc with h1 | h1
      · exact ih (n / 10) (Nat.div_lt_self (by omega) (by omega)) c h1
      · simp only [List.mem_singleton] at h1
        subst h1
        exact isDigitC_digitChar _ (Nat.mod_lt _ (by omega))

theorem digitsToNat_append_last (ds : JStr) (c : Char) :
    digitsToNat (ds ++ [c]) = digitsToNat ds * 10 + digitVal c := by
  simp [digitsToNat, List.foldl_append]

theorem digitsToNat_natDec (n : Nat) : digitsToNat (natDec n) = n := by
  induction n using Nat.strong_induction_on with
  | _ n ih =>
    rw [natDec]
    split
    · next h =>
      simp [digitsToNat, digitVal_digitChar n h]
    · next h =>
      rw [digitsToNat_append_last, ih (n / 10) (Nat.div_lt_self (by omega) (by omega)),
        digitVal_digitChar _ (Nat.mod_lt _ (by omega))]
      omega

theorem spanDigits_exact (ds rest : JStr) (hds : ∀ c ∈ ds, isDigitC c = true)
    (hr : noDigitHead rest) : spanDigits (ds ++ rest) = (ds, rest) := by
  induction ds with
  | nil =>
    cases rest with
    | nil => rfl
    | cons c cs =>
      simp only [noDigitHead] at hr
      simp [spanDigits, hr]
  | cons c cs ih =>
    have hc := hds c (by simp)
    have ih' := ih (fun x hx => hds x (List.mem_cons_of_mem _ hx))
    simp [spanDigits, hc, ih']

theorem parseHex4_hex4 (n : Nat) (h : n < 65536) :
    parseHex4 (hex4 n) = some (n, []) := by
  have h1 := parseHexDigit_hexDigit (n / 4096 % 16) (by omega)
  have h2 := parseHexDigit_hexDigit (n / 256 % 16) (by omega)
  have h3 := parseHexDigit_hexDigit (n / 16 % 16) (by omega)
  have h4 := parseHexDigit_hexDigit (n % 16) (by omega)
  simp only [hex4, parseHex4, h1, h2, h3, h4]
  congr 1
  congr 1
  omega

theorem char_eq_of_toNat {c : Char} {n : Nat} (h : c.toNat = n) : c = Char.ofNat n := by
  rw [← h, Char.ofNat_toNat]

/-! ## String codec lemmas -/

theorem psb_quote (rest : JStr) : parseStringBody ('"' :: rest) = some ([], rest) := by
  rw [parseStringBody.eq_def]
  simp only [reduceIte]

theorem psb_plain {c : Char} (h1 : ¬(c = '"')) (h2 : ¬(c = '\\')) {rest s r : JStr}
    (h : parseStringBody rest = some (s, r)) :
    parseStringBody (c :: rest) = some (c :: s, r) := by
  rw [parseStringBody.eq_def]
  simp only [if_neg h1, if_neg h2, h]

theorem psb_escape {rest2 : JStr} {ch : Char} {r2 : JStr}
    (he : parseEscape rest2 = some (ch, r2)) {s r : JStr}
    (h : parseStringBody r2 = some (s, r)) :
    parseStringBody ('\\' :: rest2) = some (ch :: s, r) := by
  rw [parseStringBody.eq_def]
  simp only [if_neg (show ¬(('\\' : Char) = '"') from by decide), reduceIte]
  split
  · next heq => rw [he] at heq; cases heq
  · next ch' r2' heq =>
    have h2 := he.symm.trans heq
    injection h2 with h3
    injection h3 with h4 h5
    subst h4
    subst h5
    simp only [h]

theorem parseEscape_simple {e ch : Char} (hu : ¬(e = 'u')) (he : escMap e = some ch)
    (r : JStr) : parseEscape (e :: r) = some (ch, r) := by
  unfold parseEscape
  simp only [if_neg hu, he, Option.map_some']

theorem parseEscape_u_single {n : Nat} (hn : n < 65536)
    (hs : ¬(0xd800 ≤ n ∧ n ≤ 0xdbff)) {ch : Char} (hc : mkChar n = some ch) (r : JStr) :
    parseEscape ('u' :: (hex4 n ++ r)) = some (ch, r) := by
  have h4 := parseHex4_hex4 n hn
  have hs' : ¬((0xd800 ≤ n && n ≤ 0xdbff) = true) := by
    simp only [Bool.and_eq_true, decide_eq_true_eq]
    exact hs
  unfold parseEscape
  simp only [hex4, List.cons_append, List.nil_append, reduceIte]
  simp only [hex4] at h4
  simp only [h4, if_neg hs', hc, Option.map_some']

theorem parseEscape_u_pair {hi lo : Nat} (hhi : 0xd800 ≤ hi ∧ hi ≤ 0xdbff)
    (hlo : 0xdc00 ≤ lo ∧ lo ≤ 0xdfff) {ch : Char}
    (hc : mkChar ((hi - 0xd800) * 0x400 + (lo - 0xdc00) + 0x10000) = some ch) (r : JStr) :
    parseEscape ('u' :: (hex4 hi ++ ('\\' :: 'u' :: (hex4 lo ++ r)))) = some (ch, r) := by
  have h4hi := parseHex4_hex4 hi (by omega)
  have h4lo := parseHex4_hex4 lo (by omega)
  have hhi' : (0xd800 ≤ hi && hi ≤ 0xdbff) = true := by
    simp only [Bool.and_eq_true, decide_eq_true_eq]
    exact hhi
  have hlo' : (0xdc00 ≤ lo && lo ≤ 0xdfff) = true := by
    simp only [Bool.and_eq_true, decide_eq_true_eq]
    exact hlo
  unfold parseEscape
  simp only [hex4, List.cons_append, List.nil_append, reduceIte]
  simp only [hex4] at h4hi h4lo
  simp only [h4hi, h4lo, hhi', hlo',
    show (('\\' : Char) = '\\' && ('u' : Char) = 'u') = true from by decide,
    reduceIte, hc, Option.map_some']
  simp

theorem parseStringBody_escChar (c : Char) {tail s r : JStr}
    (h : parseStringBody tail = some (s, r)) :
    parseStringBody (escapeChar c ++ tail) = some (c :: s, r) := by
  have hvalid : c.toNat.isValidChar := c.valid
  by_cases h34 : c.toNat = 34
  · obtain rfl : c = '"' := (char_eq_of_toNat h34).trans (by decide)
    show parseStringBody ('\\' :: '"' :: tail) = _
    exact psb_escape (parseEscape_simple (by decide) (by decide) tail) h
  by_cases h92 : c.toNat = 92
  · obtain rfl : c = '\\' := (char_eq_of_toNat h92).trans (by decide)
    show parseStringBody ('\\' :: '\\' :: tail) = _
    exact psb_escape (parseEscape_simple (by decide) (by decide) tail) h
  by_cases h10 : c.toNat = 10
  · obtain rfl : c = '\n' := (char_eq_of_toNat h10).trans (by decide)
    show parseStringBody ('\\' :: 'n' :: tail) = _
    exact psb_escape (parseEscape_simple (by decide) (by decide) tail) h
  by_cases h13 : c.toNat = 13
  · obtain rfl : c = '\r' := (char_eq_of_toNat h13).trans (by decide)
    show parseStringBody ('\\' :: 'r' :: tail) = _
    exact psb_escape (parseEscape_simple (by decide) (by decide) tail) h
  by_cases h9 : c.toNat = 9
  · obtain rfl : c = '\t' := (char_eq_of_toNat h9).trans (by decide)
    show parseStringBody ('\\' :: 't' :: tail) = _
    exact psb_escape (parseEscape_simple (by decide) (by decide) tail) h
  by_cases h8 : c.toNat = 8
  · obtain rfl : c = Char.ofNat 8 := char_eq_of_toNat h8
    show parseStringBody ('\\' :: 'b' :: tail) = _
    exact psb_escape (parseEscape_simple (by decide) (by decide) tail) h
  by_cases h12 : c.toNat = 12
  · obtain rfl : c = Char.ofNat 12 := char_eq_of_toNat h12
    show parseStringBody ('\\' :: 'f' :: tail) = _
    exact psb_escape (parseEscape_simple (by decide) (by decide) tail) h
  by_cases hprint : (32 ≤ c.toNat && c.toNat ≤ 126) = true
  · have hne1 : ¬(c = '"') := fun he => h34 (by rw [he]; rfl)
    have hne2 : ¬(c = '\\') := fun he => h92 (by rw [he]; rfl)
    unfold escapeChar
    simp only [if_neg h34, if_neg h92, if_neg h10, if_neg h13, if_neg h9, if_neg h8,
      if_neg h12, if_pos hprint, List.cons_append, List.nil_append]
    exact psb_plain hne1 hne2 h
  by_cases hbmp : c.toNat < 65536
  · have hs : ¬(0xd800 ≤ c.toNat ∧ c.toNat ≤ 0xdbff) := by
      rcases hvalid with hlt | ⟨hgt, _⟩
      · omega
      · omega
    unfold escapeChar
    simp only [if_neg h34, if_neg h92, if_neg h10, if_neg h13, if_neg h9, if_neg h8,
      if_neg h12, if_neg hprint, if_pos hbmp, List.cons_append]
    exact psb_escape (parseEscape_u_single hbmp hs (mkChar_toNat c) tail) h
  · have hrange : 65536 ≤ c.toNat ∧ c.toNat < 1114112 := by
      rcases hvalid with hlt | ⟨_, hlt2⟩
      · omega
      · omega
    have hhi : 0xd800 ≤ 0xd800 + (c.toNat - 0x10000) / 0x400 ∧
        0xd800 + (c.toNat - 0x10000) / 0x400 ≤ 0xdbff := by omega
    have hlo : 0xdc00 ≤ 0xdc00 + (c.toNat - 0x10000) % 0x400 ∧
        0xdc00 + (c.toNat - 0x10000) % 0x400 ≤ 0xdfff := by omega
    have harg : (0xd800 + (c.toNat - 0x10000) / 0x400 - 0xd800) * 0x400 +
        (0xdc00 + (c.toNat - 0x10000) % 0x400 - 0xdc00) + 0x10000 = c.toNat := by omega
    have hc : mkChar ((0xd800 + (c.toNat - 0x10000) / 0x400 - 0xd800) * 0x400 +
        (0xdc00 + (c.toNat - 0x10000) % 0x400 - 0xdc00) + 0x10000) = some c := by
      rw [harg]
      exact mkChar_toNat c
    unfold escapeChar
    simp only [if_neg h34, if_neg h92, if_neg h10, if_neg h13, if_neg h9, if_neg h8,
      if_neg h12, if_neg hprint, if_neg hbmp, List.cons_append, List.append_assoc,
      List.nil_append]
    exact psb_escape (parseEscape_u_pair hhi hlo hc tail) h

theorem parseStringBody_escStr (s : JStr) (rest : JStr) :
    parseStringBody (escStr s ++ '"' :: rest) = some (s, rest) := by
  induction s with
  | nil => exact psb_quote rest
  | cons c cs ih =>
    show parseStringBody ((escapeChar c ++ escStr cs) ++ '"' :: rest) = _
    rw [List.append_assoc]
    exact parseStringBody_escChar c ih

theorem parseStringBody_dumpString (s : JStr) (rest : JStr) :
    parseStringBody (escStr s ++ ('"' :: rest)) = some (s, rest) :=
  parseStringBody_escStr s rest

/-! ## Serializer shape lemmas -/

theorem stripLit_self (ls r : JStr) : stripLit ls (ls ++ r) = some r := by
  induction ls with
  | nil => rfl
  | cons l ls ih => simp [stripLit, ih]

theorem skipWs_not_ws {c : Char} (h : isJsonWs c = false) (t : JStr) :
    skipWs (c :: t) = c :: t := by
  simp [skipWs, h]

theorem skipWs_ws {c : Char} (h : isJsonWs c = true) (t : JStr) :
    skipWs (c :: t) = skipWs t := by
  simp [skipWs, h]

theorem natDec_cons (n : Nat) : ∃ c t, natDec n = c :: t ∧ isDigitC c = true := by
  rcases hd : natDec n with _ | ⟨c, t⟩
  · exact absurd hd (natDec_ne_nil n)
  · exact ⟨c, t, rfl, natDec_digits n c (by rw [hd]; simp)⟩

theorem isDigitC_facts {c : Char} (h : isDigitC c = true) :
    isJsonWs c = false ∧ ¬(c = 'n') ∧ ¬(c = 't') ∧ ¬(c = 'f') ∧ ¬(c = '"') ∧
    ¬(c = '-') ∧ ¬(c = '[') ∧ ¬(c = '{') ∧ ¬(c = ']') ∧ ¬(c = '}') ∧ ¬(c = ',') := by
  simp only [isDigitC, Bool.and_eq_true, decide_eq_true_eq] at h
  refine ⟨?_, ?_, ?_, ?_, ?_, ?_, ?_, ?_, ?_, ?_, ?_⟩
  · simp only [isJsonWs, Bool.or_eq_false_iff, decide_eq_false_iff_not]
    omega
  all_goals intro he
  all_goals rw [he] at h
  all_goals revert h
  all_goals decide

/-- The possible first characters of a serialized value. -/
theorem dumps_cons (o : Json) : ∃ c t, dumps o = c :: t ∧
    (c = 'n' ∨ c = 't' ∨ c = 'f' ∨ c = '"' ∨ c = '-' ∨ isDigitC c = true ∨
     c = '[' ∨ c = '{') := by
  cases o with
  | null => exact ⟨'n', _, rfl, by simp⟩
  | bool b =>
    cases b with
    | true => exact ⟨'t', _, rfl, by simp⟩
    | false => exact ⟨'f', _, rfl, by simp⟩
  | num n =>
    cases n with
    | ofNat m =>
      obtain ⟨c, t, hct, hd⟩ := natDec_cons m
      exact ⟨c, t, hct, by simp [hd]⟩
    | negSucc m => exact ⟨'-', _, rfl, by simp⟩
  | str s => exact ⟨'"', _, rfl, by simp⟩
  | arr xs =>
    cases xs with
    | nil => exact ⟨'[', _, rfl, by simp⟩
    | cons x xs => exact ⟨'[', _, rfl, by simp⟩
  | obj kvs =>
    cases kvs with
    | nil => exact ⟨'{', _, rfl, by simp⟩
    | cons kv kvs => exact ⟨'{', _, rfl, by simp⟩

theorem dumps_head_props (o : Json) : ∃ c t, dumps o = c :: t ∧
    isJsonWs c = false ∧ ¬(c = ']') ∧ ¬(c = '}') := by
  obtain ⟨c, t, hct, hc⟩ := dumps_cons o
  refine ⟨c, t, hct, ?_, ?_, ?_⟩
  · rcases hc with rfl | rfl | rfl | rfl | rfl | h | rfl | rfl
    all_goals first | rfl | exact (isDigitC_facts h).1
  · rcases hc with rfl | rfl | rfl | rfl | rfl | h | rfl | rfl
    all_goals first | decide | exact (isDigitC_facts h).2.2.2.2.2.2.2.2.1
  · rcases hc with rfl | rfl | rfl | rfl | rfl | h | rfl | rfl
    all_goals first | decide | exact (isDigitC_facts h).2.2.2.2.2.2.2.2.2.1

theorem skipWs_dumps (o : Json) (r : JStr) : skipWs (dumps o ++ r) = dumps o ++ r := by
  obtain ⟨c, t, hct, hws, _, _⟩ := dumps_head_props o
  rw [hct, List.cons_append, skipWs_not_ws hws]

theorem insertKey_append (acc : List (JStr × Json)) (k : JStr) (v : Json)
    (h : k ∉ acc.map Prod.fst) : insertKey acc k v = acc ++ [(k, v)] := by
  induction acc with
  | nil => rfl
  | cons kv acc ih =>
    have hne : ¬(kv.1 = k) := by
      intro he
      exact h (by simp [← he])
    simp only [insertKey, if_neg hne, List.cons_append, List.cons.injEq, true_and]
    exact ih (fun hm => h (by simp [hm]))

theorem nodupKeysB_not_mem {xs ys : List JStr} {k : JStr}
    (h : nodupKeysB (xs ++ k :: ys) = true) : k ∉ xs := by
  induction xs with
  | nil => simp
  | cons x xs ih =>
    simp only [List.cons_append, nodupKeysB, List.append_eq, Bool.and_eq_true, Bool.not_eq_true'] at h
    obtain ⟨hc, hrest⟩ := h
    intro hm
    rcases List.mem_cons.mp hm with rfl | hm2
    · have hmem : k ∈ xs ++ k :: ys := List.mem_append_right _ (List.mem_cons_self _ _)
      have hcon : (xs ++ k :: ys).contains k = true := List.elem_iff.mpr hmem
      rw [hcon] at hc
      cases hc
    · exact ih hrest hm2

/-! ## Parser round trip over the serializer -/

theorem fsize_pos (o : Json) : 1 ≤ fsize o := by
  cases o with
  | null => simp [fsize]
  | bool b => simp [fsize]
  | num n => simp [fsize]
  | str s => simp [fsize]
  | arr xs => cases xs <;> simp [fsize]
  | obj kvs => cases kvs <;> simp [fsize]

theorem felems_pos (xs : List Json) : 1 ≤ felems xs := by
  cases xs <;> simp [felems]

theorem fmembers_pos (kvs : List (JStr × Json)) : 1 ≤ fmembers kvs := by
  cases kvs <;> simp [fmembers]

theorem noDigitHead_elems (xs : List Json) (rest : JStr) :
    noDigitHead (dumpsElems xs ++ (']' :: rest)) := by
  cases xs with
  | nil => exact (by decide : isDigitC ']' = false)
  | cons y ys => exact (by decide : isDigitC ',' = false)

theorem noDigitHead_members (kvs : List (JStr × Json)) (rest : JStr) :
    noDigitHead (dumpsMembers kvs ++ ('}' :: rest)) := by
  cases kvs with
  | nil => exact (by decide : isDigitC '}' = false)
  | cons kv kvs => exact (by decide : isDigitC ',' = false)

theorem skipWs_dumpMember (k : JStr) (v : Json) (r : JStr) :
    skipWs (dumpMember (k, v) ++ r) = dumpMember (k, v) ++ r := by
  rw [show dumpMember (k, v) ++ r =
    '"' :: (escStr k ++ ('"' :: (':' :: (' ' :: (dumps v ++ r))))) from by
      simp [dumpMember, dumpString]]
  exact skipWs_not_ws (by decide) _

theorem parse_dumps_master (fuel : Nat) :
    (∀ o rest, Json.valid o = true → fsize o ≤ fuel → noDigitHead rest →
      parseVal fuel (dumps o ++ rest) = some (o, rest)) ∧
    (∀ x xs rest, validList (x :: xs) = true → felems (x :: xs) ≤ fuel →
      parseElems fuel (dumps x ++ (dumpsElems xs ++ (']' :: rest))) = some (x :: xs, rest)) ∧
    (∀ k v kvs acc rest, validMembers ((k, v) :: kvs) = true →
      nodupKeysB (acc.map Prod.fst ++ (k :: kvs.map Prod.fst)) = true →
      fmembers ((k, v) :: kvs) ≤ fuel →
      parseMembers fuel acc (dumpMember (k, v) ++ (dumpsMembers kvs ++ ('}' :: rest))) =
        some (acc ++ (k, v) :: kvs, rest)) := by
  induction fuel with
  | zero =>
    refine ⟨?_, ?_, ?_⟩
    · intro o rest _ hf _
      exact absurd hf (by have := fsize_pos o; omega)
    · intro x xs rest _ hf
      exact absurd hf (by have := felems_pos (x :: xs); omega)
    · intro k v kvs acc rest _ _ hf
      exact absurd hf (by have := fmembers_pos ((k, v) :: kvs); omega)
  | succ fuel ih =>
    obtain ⟨ihP, ihQ, ihR⟩ := ih
    refine ⟨?_, ?_, ?_⟩
    · intro o rest hv hf hnd
      cases o with
      | null =>
        rw [show dumps Json.null ++ rest = 'n' :: ("ull".toList ++ rest) from rfl]
        rw [parseVal, skipWs_not_ws (by decide)]
        simp only [Char.reduceEq, reduceIte]
        rw [stripLit_self]
        rfl
      | bool b =>
        cases b with
        | true =>
          rw [show dumps (Json.bool true) ++ rest = 't' :: ("rue".toList ++ rest) from rfl]
          rw [parseVal, skipWs_not_ws (by decide)]
          simp only [Char.reduceEq, reduceIte]
          rw [stripLit_self]
          rfl
        | false =>
          rw [show dumps (Json.bool false) ++ rest = 'f' :: ("alse".toList ++ rest) from rfl]
          rw [parseVal, skipWs_not_ws (by decide)]
          simp only [Char.reduceEq, reduceIte]
          rw [stripLit_self]
          rfl
      | num n =>
        cases n with
        | ofNat m =>
          obtain ⟨c, t, hct, hdig⟩ := natDec_cons m
          have hfacts := isDigitC_facts hdig
          have hspan : spanDigits (c :: (t ++ rest)) = (natDec m, rest) := by
            rw [← List.cons_append, ← hct]
            exact spanDigits_exact _ _ (natDec_digits m) hnd
          rw [show dumps (Json.num (Int.ofNat m)) = natDec m from rfl, hct, List.cons_append,
            parseVal, skipWs_not_ws hfacts.1]
          simp only [hfacts.2.1, hfacts.2.2.1, hfacts.2.2.2.1, hfacts.2.2.2.2.1,
            hfacts.2.2.2.2.2.1, hdig, if_true, if_false, ite_true, ite_false, hspan,
            digitsToNat_natDec, Int.ofNat_eq_coe]
        | negSucc m =>
          rw [show dumps (Json.num (Int.negSucc m)) = '-' :: natDec (m + 1) from rfl,
            List.cons_append, parseVal, skipWs_not_ws (by decide)]
          simp only [Char.reduceEq, reduceIte]
          have hspan : spanDigits (natDec (m + 1) ++ rest) = (natDec (m + 1), rest) :=
            spanDigits_exact _ _ (natDec_digits _) hnd
          obtain ⟨c, t, hct, hdig⟩ := natDec_cons (m + 1)
          rw [hspan, hct]
          simp only [← hct, digitsToNat_natDec]
          simp only [Option.some.injEq, Prod.mk.injEq, Json.num.injEq]
          constructor
          · simp only [Int.negSucc_eq]
            push_cast
            ring
          · trivial
      | str s =>
        rw [show dumps (Json.str s) ++ rest = '"' :: (escStr s ++ ('"' :: rest)) from by
          simp [dumps, dumpString]]
        rw [parseVal, skipWs_not_ws (by decide)]
        simp only [Char.reduceEq, reduceIte]
        rw [parseStringBody_escStr]
        rfl
      | arr xs =>
        cases xs with
        | nil =>
          rw [show dumps (Json.arr []) ++ rest = '[' :: (']' :: rest) from rfl]
          rw [parseVal, skipWs_not_ws (by decide)]
          simp only [skipWs_not_ws (show isJsonWs ']' = false from by decide), Char.reduceEq,
            (show isDigitC '[' = false from by decide), Bool.false_eq_true, reduceIte]
        | cons x xs' =>
          have hfels : felems (x :: xs') ≤ fuel := by
            have h1 : fsize (Json.arr (x :: xs')) = 1 + felems (x :: xs') := rfl
            omega
          rw [show dumps (Json.arr (x :: xs')) ++ rest =
            '[' :: (dumps x ++ (dumpsElems xs' ++ (']' :: rest))) from by simp [dumps, dumpString, dumpsElems, dumpMember, dumpsMembers]]
          rw [parseVal, skipWs_not_ws (by decide)]
          simp only [Char.reduceEq, (show isDigitC '[' = false from by decide), Bool.false_eq_true, reduceIte]
          obtain ⟨c, t, hct, hws, hnr, _⟩ := dumps_head_props x
          rw [show dumps x ++ (dumpsElems xs' ++ (']' :: rest)) =
            c :: (t ++ (dumpsElems xs' ++ (']' :: rest))) from by rw [hct]; simp]
          rw [skipWs_not_ws hws]
          simp only [if_neg hnr]
          rw [show c :: (t ++ (dumpsElems xs' ++ (']' :: rest))) =
            dumps x ++ (dumpsElems xs' ++ (']' :: rest)) from by rw [hct]; simp]
          rw [ihQ x xs' rest hv hfels]
          rfl
      | obj kvs =>
        cases kvs with
        | nil =>
          rw [show dumps (Json.obj []) ++ rest = '{' :: ('}' :: rest) from rfl]
          rw [parseVal, skipWs_not_ws (by decide)]
          simp only [skipWs_not_ws (show isJsonWs '}' = false from by decide), Char.reduceEq,
            (show isDigitC '{' = false from by decide), Bool.false_eq_true, reduceIte]
        | cons kv kvs' =>
          obtain ⟨k, v⟩ := kv
          have hv2 : nodupKeysB (((k, v) :: kvs').map Prod.fst) = true ∧
              validMembers ((k, v) :: kvs') = true := by
            have : (nodupKeysB (((k, v) :: kvs').map Prod.fst) &&
                validMembers ((k, v) :: kvs')) = true := hv
            exact Bool.and_eq_true_iff.mp this
          have hfm : fmembers ((k, v) :: kvs') ≤ fuel := by
            have h1 : fsize (Json.obj ((k, v) :: kvs')) = 1 + fmembers ((k, v) :: kvs') := rfl
            omega
          rw [show dumps (Json.obj ((k, v) :: kvs')) ++ rest =
            '{' :: (dumpMember (k, v) ++ (dumpsMembers kvs' ++ ('}' :: rest))) from by simp [dumps, dumpString, dumpsElems, dumpMember, dumpsMembers]]
          rw [parseVal, skipWs_not_ws (by decide)]
          simp only [Char.reduceEq, (show isDigitC '{' = false from by decide), Bool.false_eq_true, reduceIte]
          rw [show dumpMember (k, v) ++ (dumpsMembers kvs' ++ ('}' :: rest)) =
            '"' :: (escStr k ++ ('"' :: (':' :: (' ' :: (dumps v ++
              (dumpsMembers kvs' ++ ('}' :: rest))))))) from by simp [dumpMember, dumpString, List.append_assoc]]
          rw [skipWs_not_ws (by decide)]
          simp only [Char.reduceEq, reduceIte]
          rw [show ('"' : Char) :: (escStr k ++ ('"' :: (':' :: (' ' :: (dumps v ++
              (dumpsMembers kvs' ++ ('}' :: rest))))))) =
            dumpMember (k, v) ++ (dumpsMembers kvs' ++ ('}' :: rest)) from by
              simp [dumpMember, dumpString]]
          rw [ihR k v kvs' [] rest hv2.2 (by simpa using hv2.1) hfm]
          rfl
    · intro x xs rest hvl hfe
      have hvx : x.valid = true ∧ validList xs = true := by
        have : (x.valid && validList xs) = true := hvl
        exact Bool.and_eq_true_iff.mp this
      have hfx : fsize x ≤ fuel := by
        have h1 : felems (x :: xs) = 1 + max (fsize x) (felems xs) := rfl
        omega
      rw [parseElems]
      rw [ihP x (dumpsElems xs ++ (']' :: rest)) hvx.1 hfx (noDigitHead_elems xs rest)]
      cases xs with
      | nil =>
        rw [show dumpsElems [] ++ (']' :: rest) = ']' :: rest from rfl]
        simp only [skipWs_not_ws (show isJsonWs ']' = false from by decide), Char.reduceEq,
          reduceIte]
      | cons y ys =>
        have hfys : felems (y :: ys) ≤ fuel := by
          have h1 : felems (x :: y :: ys) = 1 + max (fsize x) (felems (y :: ys)) := rfl
          omega
        rw [show dumpsElems (y :: ys) ++ (']' :: rest) =
          ',' :: (' ' :: (dumps y ++ (dumpsElems ys ++ (']' :: rest)))) from by
            simp [dumpsElems]]
        simp only [skipWs_not_ws (show isJsonWs ',' = false from by decide),
          skipWs_ws (show isJsonWs ' ' = true from by decide), skipWs_dumps,
          Char.reduceEq, reduceIte]
        rw [ihQ y ys rest hvx.2 hfys]
    · intro k v kvs acc rest hvm hnd hfm
      have hvv : v.valid = true ∧ validMembers kvs = true := by
        have : (v.valid && validMembers kvs) = true := hvm
        exact Bool.and_eq_true_iff.mp this
      have hfv : fsize v ≤ fuel := by
        have h1 : fmembers ((k, v) :: kvs) = 1 + max (fsize v) (fmembers kvs) := rfl
        omega
      have hknotin : k ∉ acc.map Prod.fst := nodupKeysB_not_mem hnd
      rw [parseMembers.eq_def]
      rw [show dumpMember (k, v) ++ (dumpsMembers kvs ++ ('}' :: rest)) =
        '"' :: (escStr k ++ ('"' :: (':' :: (' ' :: (dumps v ++
          (dumpsMembers kvs ++ ('}' :: rest))))))) from by
            simp [dumpMember, dumpString, List.append_assoc]]
      simp only [Char.reduceEq, reduceIte, parseStringBody_escStr,
        skipWs_not_ws (show isJsonWs ':' = false from by decide),
        skipWs_ws (show isJsonWs ' ' = true from by decide), skipWs_dumps]
      rw [ihP v _ hvv.1 hfv (noDigitHead_members kvs rest)]
      cases kvs with
      | nil =>
        rw [show dumpsMembers [] ++ ('}' :: rest) = '}' :: rest from rfl]
        simp only [skipWs_not_ws (show isJsonWs '}' = false from by decide), Char.reduceEq,
          reduceIte]
        rw [insertKey_append acc k v hknotin]
      | cons kv2 kvs2 =>
        obtain ⟨k2, v2⟩ := kv2
        have hfm2 : fmembers ((k2, v2) :: kvs2) ≤ fuel := by
          have h1 : fmembers ((k, v) :: (k2, v2) :: kvs2) =
            1 + max (fsize v) (fmembers ((k2, v2) :: kvs2)) := rfl
          omega
        rw [show dumpsMembers ((k2, v2) :: kvs2) ++ ('}' :: rest) =
          ',' :: (' ' :: (dumpMember (k2, v2) ++ (dumpsMembers kvs2 ++ ('}' :: rest)))) from by
            simp [dumpsMembers]]
        simp only [skipWs_not_ws (show isJsonWs ',' = false from by decide),
          skipWs_ws (show isJsonWs ' ' = true from by decide), skipWs_dumpMember,
          Char.reduceEq, reduceIte]
        rw [insertKey_append acc k v hknotin]
        have hnd2 : nodupKeysB ((acc ++ [(k, v)]).map Prod.fst ++
            (k2 :: kvs2.map Prod.fst)) = true := by
          simpa [List.map_append, List.append_assoc] using hnd
        rw [ihR k2 v2 kvs2 (acc ++ [(k, v)]) rest hvv.2 hnd2 hfm2]
        simp [List.append_assoc]

theorem intDec_ne_nil (n : Int) : intDec n ≠ [] := by
  cases n with
  | ofNat m => exact natDec_ne_nil m
  | negSucc m => simp [intDec]

mutual
theorem fsize_le_dumps (o : Json) : fsize o ≤ (dumps o).length := by
  cases o with
  | null => decide
  | bool b => cases b <;> decide
  | num n =>
    have h := intDec_ne_nil n
    have : 0 < (intDec n).length := List.length_pos.mpr h
    show fsize (Json.num n) ≤ (intDec n).length
    simp only [fsize]
    omega
  | str s =>
    show 1 ≤ (dumpString s).length
    simp [dumpString]
  | arr xs =>
    cases xs with
    | nil => decide
    | cons x xs' =>
      have h1 := fsize_le_dumps x
      have h2 := felems_le_dumps xs'
      show 1 + felems (x :: xs') ≤ ('[' :: (dumps x ++ dumpsElems xs' ++ [']'])).length
      have h3 : felems (x :: xs') = 1 + max (fsize x) (felems xs') := rfl
      have h4 : 0 < (dumps x).length := by
        obtain ⟨c, t, hct, -⟩ := dumps_cons x
        simp [hct]
      simp only [List.length_cons, List.length_append, List.length_singleton, h3]
      omega
  | obj kvs =>
    cases kvs with
    | nil => decide
    | cons kv kvs' =>
      have h1 := fsize_le_dumps kv.2
      have h2 := fmembers_le_dumps kvs'
      show 1 + fmembers (kv :: kvs') ≤ ('{' :: (dumpMember kv ++ dumpsMembers kvs' ++ ['}'])).length
      have h3 : fmembers (kv :: kvs') = 1 + max (fsize kv.2) (fmembers kvs') := rfl
      have h5 : (dumps kv.2).length + 2 ≤ (dumpMember kv).length := by
        obtain ⟨k, v⟩ := kv
        show (dumps v).length + 2 ≤ (dumpString k ++ ':' :: ' ' :: dumps v).length
        simp [dumpString]
        omega
      simp only [List.length_cons, List.length_append, List.length_singleton, h3]
      omega

theorem felems_le_dumps (xs : List Json) : felems xs ≤ 1 + (dumpsElems xs).length := by
  cases xs with
  | nil => decide
  | cons x xs' =>
    have h1 := fsize_le_dumps x
    have h2 := felems_le_dumps xs'
    show 1 + max (fsize x) (felems xs') ≤ 1 + (',' :: ' ' :: (dumps x ++ dumpsElems xs')).length
    simp only [List.length_cons, List.length_append]
    omega

theorem fmembers_le_dumps (kvs : List (JStr × Json)) :
    fmembers kvs ≤ 1 + (dumpsMembers kvs).length := by
  cases kvs with
  | nil => decide
  | cons kv kvs' =>
    have h1 := fsize_le_dumps kv.2
    have h2 := fmembers_le_dumps kvs'
    have h5 : (dumps kv.2).length + 2 ≤ (dumpMember kv).length := by
      obtain ⟨k, v⟩ := kv
      show (dumps v).length + 2 ≤ (dumpString k ++ ':' :: ' ' :: dumps v).length
      simp [dumpString]
      omega
    show 1 + max (fsize kv.2) (fmembers kvs') ≤
      1 + (',' :: ' ' :: (dumpMember kv ++ dumpsMembers kvs')).length
    simp only [List.length_cons, List.length_append]
    omega
end

/-- `json.loads(json.dumps(o)) == o` for every Python-representable value. -/
theorem loads_dumps (o : Json) (hv : o.valid = true) : loads (dumps o) = some o := by
  have hP := (parse_dumps_master (dumps o).length).1
  have hle := fsize_le_dumps o
  have h := hP o [] hv hle trivial
  rw [List.append_nil] at h
  rw [loads, h]
  rfl

/-! ## ASCII output and UTF-8 round trip -/

theorem hexDigit_ascii : ∀ d, d < 16 → (hexDigit d).toNat < 128 := by decide

theorem hex4_ascii (n : Nat) : ∀ c ∈ hex4 n, c.toNat < 128 := by
  intro c hc
  simp only [hex4, List.mem_cons, List.mem_singleton, List.not_mem_nil, or_false] at hc
  rcases hc with rfl | rfl | rfl | rfl
  all_goals exact hexDigit_ascii _ (Nat.mod_lt _ (by omega))

theorem escapeChar_ascii (c : Char) : ∀ d ∈ escapeChar c, d.toNat < 128 := by
  intro d hd
  unfold escapeChar at hd
  split_ifs at hd with h1 h2 h3 h4 h5 h6 h7 h8 h9
  iterate 7
    first
    | (simp only [List.mem_cons, List.not_mem_nil, or_false] at hd
       rcases hd with rfl | rfl <;> decide)
  · simp only [List.mem_singleton] at hd
    subst hd
    simp only [Bool.and_eq_true, decide_eq_true_eq] at h8
    omega
  · simp only [List.mem_cons] at hd
    rcases hd with rfl | rfl | hd
    · decide
    · decide
    · exact hex4_ascii _ _ hd
  · rcases List.mem_append.mp hd with hd2 | hd2 <;>
      (simp only [List.mem_cons] at hd2
       rcases hd2 with rfl | rfl | hd2)
    · decide
    · decide
    · exact hex4_ascii _ _ hd2
    · decide
    · decide
    · exact hex4_ascii _ _ hd2

theorem escStr_ascii (s : JStr) : ∀ d ∈ escStr s, d.toNat < 128 := by
  induction s with
  | nil => intro d hd; cases hd
  | cons c cs ih =>
    intro d hd
    rcases List.mem_append.mp hd with h | h
    · exact escapeChar_ascii c d h
    · exact ih d h

theorem natDec_ascii (n : Nat) : ∀ c ∈ natDec n, c.toNat < 128 := by
  intro c hc
  have h := natDec_digits n c hc
  simp only [isDigitC, Bool.and_eq_true, decide_eq_true_eq] at h
  omega

theorem intDec_ascii (n : Int) : ∀ c ∈ intDec n, c.toNat < 128 := by
  intro c hc
  cases n with
  | ofNat m => exact natDec_ascii m c hc
  | negSucc m =>
    rcases List.mem_cons.mp hc with rfl | h
    · decide
    · exact natDec_ascii _ c h

mutual
theorem dumps_ascii (o : Json) : ∀ c ∈ dumps o, c.toNat < 128 := by
  cases o with
  | null => decide
  | bool b => cases b <;> decide
  | num n => exact intDec_ascii n
  | str s =>
    intro c hc
    rcases List.mem_cons.mp hc with rfl | h
    · decide
    · rcases List.mem_append.mp h with h2 | h2
      · exact escStr_ascii s c h2
      · simp only [List.mem_singleton] at h2
        subst h2
        decide
  | arr xs =>
    cases xs with
    | nil => decide
    | cons x xs' =>
      intro c hc
      rcases List.mem_cons.mp hc with rfl | h
      · decide
      · rcases List.mem_append.mp h with h2 | h2
        · rcases List.mem_append.mp h2 with h3 | h3
          · exact dumps_ascii x c h3
          · exact dumpsElems_ascii xs' c h3
        · simp only [List.mem_singleton] at h2
          subst h2
          decide
  | obj kvs =>
    cases kvs with
    | nil => decide
    | cons kv kvs' =>
      intro c hc
      rcases List.mem_cons.mp hc with rfl | h
      · decide
      · rcases List.mem_append.mp h with h2 | h2
        · rcases List.mem_append.mp h2 with h3 | h3
          · exact dumpMember_ascii kv c h3
          · exact dumpsMembers_ascii kvs' c h3
        · simp only [List.mem_singleton] at h2
          subst h2
          decide

theorem dumpsElems_ascii (xs : List Json) : ∀ c ∈ dumpsElems xs, c.toNat < 128 := by
  cases xs with
  | nil => intro c hc; cases hc
  | cons x xs' =>
    intro c hc
    rcases List.mem_cons.mp hc with rfl | h
    · decide
    · rcases List.mem_cons.mp h with rfl | h2
      · decide
      · rcases List.mem_append.mp h2 with h3 | h3
        · exact dumps_ascii x c h3
        · exact dumpsElems_ascii xs' c h3

theorem dumpMember_ascii (kv : JStr × Json) : ∀ c ∈ dumpMember kv, c.toNat < 128 := by
  obtain ⟨k, v⟩ := kv
  intro c hc
  rcases List.mem_append.mp hc with h | h
  · rcases List.mem_cons.mp h with rfl | h2
    · decide
    · rcases List.mem_append.mp h2 with h3 | h3
      · exact escStr_ascii k c h3
      · simp only [List.mem_singleton] at h3
        subst h3
        decide
  · rcases List.mem_cons.mp h with rfl | h2
    · decide
    · rcases List.mem_cons.mp h2 with rfl | h3
      · decide
      · exact dumps_ascii v c h3

theorem dumpsMembers_ascii (kvs : List (JStr × Json)) :
    ∀ c ∈ dumpsMembers kvs, c.toNat < 128 := by
  cases kvs with
  | nil => intro c hc; cases hc
  | cons kv kvs' =>
    intro c hc
    rcases List.mem_cons.mp hc with rfl | h
    · decide
    · rcases List.mem_cons.mp h with rfl | h2
      · decide
      · rcases List.mem_append.mp h2 with h3 | h3
        · exact dumpMember_ascii kv c h3
        · exact dumpsMembers_ascii kvs' c h3
end

theorem utf8DecodeChar_ascii {v : Nat} (hv : v < 128) {c : Char} (hc : mkChar v = some c)
    (rest : List Nat) : utf8DecodeChar (v :: rest) = some (c, rest) := by
  unfold utf8DecodeChar
  simp only [if_pos hv, hc, Option.map_some']

theorem utf8Decode_cons {b : Nat} {rest : List Nat} {c : Char} {bs2 : List Nat}
    (h1 : utf8DecodeChar (b :: rest) = some (c, bs2)) {s : JStr}
    (h2 : utf8Decode bs2 = some s) : utf8Decode (b :: rest) = some (c :: s) := by
  rw [utf8Decode.eq_def]
  split
  · next heq => exact List.noConfusion heq
  · next b' rest' heq =>
    injection heq with e1 e2
    subst e1
    subst e2
    split
    · next heq2 => exact Option.noConfusion (h1.symm.trans heq2)
    · next c' bs2' heq2 =>
      have hee := h1.symm.trans heq2
      injection hee with hee2
      injection hee2 with e3 e4
      subst e3
      subst e4
      simp only [h2]

theorem utf8Decode_encode_ascii (s : JStr) (h : ∀ c ∈ s, c.toNat < 128) :
    utf8Decode (utf8Encode s) = some s := by
  induction s with
  | nil =>
    show utf8Decode [] = some []
    rw [utf8Decode.eq_def]
  | cons c cs ih =>
    have hc : c.toNat < 128 := h c (by simp)
    have ih2 := ih (fun d hd => h d (by simp [hd]))
    show utf8Decode (utf8EncodeChar c ++ utf8Encode cs) = _
    rw [show utf8EncodeChar c = [c.toNat] from by unfold utf8EncodeChar; rw [if_pos hc]]
    exact utf8Decode_cons (utf8DecodeChar_ascii hc (mkChar_toNat c) _) ih2

/-! ## Byte-stream lemmas: reads see only the flattened bytes -/

theorem loadsBytes_dumps (o : Json) (hv : o.valid = true) :
    loadsBytes (utf8Encode (dumps o)) = some o := by
  rw [loadsBytes, utf8Decode_encode_ascii _ (dumps_ascii o)]
  simp only [Option.some_bind]
  exact loads_dumps o hv

theorem beNat_beBytes (n : Nat) (h : n < 4294967296) : beNat (beBytes n) = n := by
  show ((((0 * 256 + n / 16777216 % 256) * 256 + n / 65536 % 256) * 256 + n / 256 % 256) *
    256 + n % 256) = n
  omega

theorem recv_cons (c : List Nat) (cs : ByteStream) (n : Nat) :
    recv (c :: cs) n = (c.take n, if (c.drop n).isEmpty then cs else c.drop n :: cs) := rfl

theorem streamWF_flatten_nil {s : ByteStream} (hwf : streamWF s) (h : s.flatten = []) :
    s = [] := by
  cases s with
  | nil => rfl
  | cons c cs =>
    exfalso
    have hc : c ≠ [] := hwf c (by simp)
    simp only [List.flatten_cons, List.append_eq_nil] at h
    exact hc h.1

theorem recv_exact_spec : ∀ n s, streamWF s → n ≤ s.flatten.length →
    ∃ s', recv_exact s n = some (s.flatten.take n, s') ∧
      s'.flatten = s.flatten.drop n ∧ streamWF s' := by
  intro n
  induction n using Nat.strong_induction_on with
  | _ n ih =>
    intro s hwf hn
    rcases Nat.eq_zero_or_pos n with rfl | hpos
    · refine ⟨s, ?_, by simp, hwf⟩
      rw [recv_exact]
      simp
    cases s with
    | nil =>
      simp only [List.flatten_nil, List.length_nil] at hn
      omega
    | cons c cs =>
      have hcne : c ≠ [] := hwf c (by simp)
      have hwfcs : streamWF cs := fun d hd => hwf d (by simp [hd])
      obtain ⟨b0, c', rfl⟩ := List.exists_cons_of_ne_nil hcne
      have hchunk : ((b0 :: c').take n) = b0 :: c'.take (n - 1) := by
        cases n with
        | zero => omega
        | succ m => simp
      -- the number of bytes this recv returns
      have hklen : (b0 :: c'.take (n - 1)).length = min n (b0 :: c').length := by
        simp only [List.length_cons, List.length_take]
        omega
      set k := min n (b0 :: c').length with hkdef
      have hk1 : 1 ≤ k := by simp only [hkdef, List.length_cons]; omega
      have hkn : k ≤ n := by omega
      have hkc : k ≤ (b0 :: c').length := by omega
      have htakek : (b0 :: c').take n = (b0 :: c').take k := by
        rcases Nat.le_total n (b0 :: c').length with h | h
        · have : k = n := by omega
          rw [this]
        · rw [List.take_of_length_le h, List.take_of_length_le (by omega)]
      have hdropk : (b0 :: c').drop n = (b0 :: c').drop k := by
        rcases Nat.le_total n (b0 :: c').length with h | h
        · have : k = n := by omega
          rw [this]
        · rw [List.drop_of_length_le h, List.drop_of_length_le (by omega)]
      have hflat : ((b0 :: c') :: cs).flatten = (b0 :: c') ++ cs.flatten := by simp
      -- the post-read stream
      have hz : k - (b0 :: c').length = 0 := by
        simp only [List.length_cons]
        simp only [List.length_cons] at hkc
        omega
      have hS1 : ∀ s1, (if ((b0 :: c').drop n).isEmpty then cs else (b0 :: c').drop n :: cs) = s1 →
          s1.flatten = (((b0 :: c') :: cs).flatten).drop k ∧ streamWF s1 := by
        intro s1 hs1
        by_cases hemp : ((b0 :: c').drop n).isEmpty
        · rw [if_pos hemp] at hs1
          subst hs1
          have hde : (b0 :: c').drop n = [] := by
            rwa [List.isEmpty_iff] at hemp
          rw [hdropk] at hde
          refine ⟨?_, hwfcs⟩
          rw [hflat, List.drop_append_eq_append_drop, hde, hz]
          simp
        · rw [if_neg hemp] at hs1
          subst hs1
          refine ⟨?_, ?_⟩
          · rw [hflat, List.drop_append_eq_append_drop, hz]
            simp [hdropk]
          · intro d hd
            rcases List.mem_cons.mp hd with rfl | hd2
            · rwa [List.isEmpty_iff] at hemp
            · exact hwfcs d hd2
      obtain ⟨hflat1, hwf1⟩ := hS1 _ rfl
      -- apply the induction hypothesis to the rest
      have hlen1 : n - k ≤ ((if ((b0 :: c').drop n).isEmpty then cs else
          (b0 :: c').drop n :: cs).flatten).length := by
        rw [hflat1, List.length_drop]
        rw [hflat] at hn ⊢
        simp only [List.length_append, List.length_cons] at hn ⊢
        simp only [List.length_cons] at hkc
        omega
      have hnk : n - k < n := by omega
      obtain ⟨s'', heq, hflat2, hwf2⟩ := ih (n - k) hnk _ hwf1 hlen1
      refine ⟨s'', ?_, ?_, hwf2⟩
      · rw [recv_exact]
        rw [if_neg (by omega : ¬ n = 0)]
        simp only [recv_cons, hchunk]
        rw [show (b0 :: c'.take (n - 1)).length = k from by rw [hklen]]
        simp only [heq, hflat1]
        congr 1
        rw [← hchunk, htakek]
        conv_rhs => rw [show n = k + (n - k) from by omega, List.take_add]
        congr 1
        rw [hflat, List.take_append_eq_append_take,
          (show k - (b0 :: c').length = 0 from by omega)]
        simp
      · rw [hflat2, hflat1, List.drop_drop]
        congr 1
        omega

theorem recv_exact_short : ∀ n s, streamWF s → s.flatten.length < n →
    recv_exact s n = none := by
  intro n
  induction n using Nat.strong_induction_on with
  | _ n ih =>
    intro s hwf hn
    have hn0 : ¬ n = 0 := by omega
    cases s with
    | nil =>
      rw [recv_exact, if_neg hn0]
      rfl
    | cons c cs =>
      have hcne : c ≠ [] := hwf c (by simp)
      have hwfcs : streamWF cs := fun d hd => hwf d (by simp [hd])
      obtain ⟨b0, c', rfl⟩ := List.exists_cons_of_ne_nil hcne
      have hchunk : ((b0 :: c').take n) = b0 :: c'.take (n - 1) := by
        cases n with
        | zero => omega
        | succ m => simp
      have hklen : (b0 :: c'.take (n - 1)).length = min n (b0 :: c').length := by
        simp only [List.length_cons, List.length_take]
        omega
      set k := min n (b0 :: c').length with hkdef
      have hk1 : 1 ≤ k := by simp only [hkdef, List.length_cons]; omega
      have hkc : k ≤ (b0 :: c').length := by omega
      have hdropk : (b0 :: c').drop n = (b0 :: c').drop k := by
        rcases Nat.le_total n (b0 :: c').length with h | h
        · have : k = n := by omega
          rw [this]
        · rw [List.drop_of_length_le h, List.drop_of_length_le (by omega)]
      have hflat : ((b0 :: c') :: cs).flatten = (b0 :: c') ++ cs.flatten := by simp
      have hz : k - (b0 :: c').length = 0 := by
        simp only [List.length_cons]
        simp only [List.length_cons] at hkc
        omega
      have hS1 : ∀ s1, (if ((b0 :: c').drop n).isEmpty then cs else (b0 :: c').drop n :: cs) = s1 →
          s1.flatten = (((b0 :: c') :: cs).flatten).drop k ∧ streamWF s1 := by
        intro s1 hs1
        by_cases hemp : ((b0 :: c').drop n).isEmpty
        · rw [if_pos hemp] at hs1
          subst hs1
          have hde : (b0 :: c').drop n = [] := by
            rwa [List.isEmpty_iff] at hemp
          rw [hdropk] at hde
          refine ⟨?_, hwfcs⟩
          rw [hflat, List.drop_append_eq_append_drop, hde, hz]
          simp
        · rw [if_neg hemp] at hs1
          subst hs1
          refine ⟨?_, ?_⟩
          · rw [hflat, List.drop_append_eq_append_drop, hz]
            simp [hdropk]
          · intro d hd
            rcases List.mem_cons.mp hd with rfl | hd2
            · rwa [List.isEmpty_iff] at hemp
            · exact hwfcs d hd2
      obtain ⟨hflat1, hwf1⟩ := hS1 _ rfl
      have hshort1 : ((if ((b0 :: c').drop n).isEmpty then cs else
          (b0 :: c').drop n :: cs).flatten).length < n - k := by
        rw [hflat1, List.length_drop]
        rw [hflat] at hn ⊢
        simp only [List.length_append, List.length_cons] at hn ⊢
        simp only [List.length_cons] at hkc
        omega
      have hnk : n - k < n := by omega
      rw [recv_exact, if_neg hn0]
      simp only [recv_cons, hchunk]
      rw [show (b0 :: c'.take (n - 1)).length = k from by rw [hklen]]
      simp only [ih (n - k) hnk _ hwf1 hshort1]

theorem recv_tail_spec (c : List Nat) (cs : ByteStream) (hcne : c ≠ []) (hwfcs : streamWF cs)
    (n : Nat) (hpos : 0 < n) :
    (if (c.drop n).isEmpty then cs else c.drop n :: cs).flatten =
        ((c :: cs) : ByteStream).flatten.drop (min n c.length) ∧
    streamWF (if (c.drop n).isEmpty then cs else c.drop n :: cs) ∧
    c.take n = ((c :: cs) : ByteStream).flatten.take (min n c.length) ∧
    (c.take n).length = min n c.length := by
  obtain ⟨b0, c', rfl⟩ := List.exists_cons_of_ne_nil hcne
  set k := min n (b0 :: c').length with hkdef
  have hk1 : 1 ≤ k := by simp only [hkdef, List.length_cons]; omega
  have hkc : k ≤ (b0 :: c').length := by omega
  have hdropk : (b0 :: c').drop n = (b0 :: c').drop k := by
    rcases Nat.le_total n (b0 :: c').length with h | h
    · have : k = n := by omega
      rw [this]
    · rw [List.drop_of_length_le h, List.drop_of_length_le (by omega)]
  have htakek : (b0 :: c').take n = (b0 :: c').take k := by
    rcases Nat.le_total n (b0 :: c').length with h | h
    · have : k = n := by omega
      rw [this]
    · rw [List.take_of_length_le h, List.take_of_length_le (by omega)]
  have hflat : ((b0 :: c') :: cs).flatten = (b0 :: c') ++ cs.flatten := by simp
  have hz : k - (b0 :: c').length = 0 := by
    simp only [List.length_cons]
    simp only [List.length_cons] at hkc
    omega
  refine ⟨?_, ?_, ?_, ?_⟩
  · by_cases hemp : ((b0 :: c').drop n).isEmpty
    · rw [if_pos hemp]
      have hde : (b0 :: c').drop n = [] := by
        rwa [List.isEmpty_iff] at hemp
      rw [hdropk] at hde
      rw [hflat, List.drop_append_eq_append_drop, hde, hz]
      simp
    · rw [if_neg hemp]
      rw [hflat, List.drop_append_eq_append_drop, hz]
      simp [hdropk]
  · by_cases hemp : ((b0 :: c').drop n).isEmpty
    · rw [if_pos hemp]
      exact hwfcs
    · rw [if_neg hemp]
      intro d hd
      rcases List.mem_cons.mp hd with rfl | hd2
      · rwa [List.isEmpty_iff] at hemp
      · exact hwfcs d hd2
  · rw [htakek, hflat, List.take_append_eq_append_take, hz]
    simp
  · simp only [List.length_take]

theorem readFrameServer_nil : readFrameServer [] = (.closed, []) := rfl

theorem readFrameServer_frame (s : ByteStream) (hwf : streamWF s)
    (hlen : 4 + beNat (s.flatten.take 4) ≤ s.flatten.length) :
    ∃ s', readFrameServer s =
        (.frame ((s.flatten.drop 4).take (beNat (s.flatten.take 4))), s') ∧
      s'.flatten = s.flatten.drop (4 + beNat (s.flatten.take 4)) ∧ streamWF s' := by
  cases s with
  | nil => simp at hlen
  | cons c cs =>
    have hcne : c ≠ [] := hwf c (by simp)
    have hwfcs : streamWF cs := fun d hd => hwf d (by simp [hd])
    obtain ⟨hflat1, hwf1, htake, hlen4⟩ := recv_tail_spec c cs hcne hwfcs 4 (by omega)
    set k := min 4 c.length with hkdef
    have hk1 : 1 ≤ k := by
      have : 0 < c.length := List.length_pos.mpr hcne
      simp only [hkdef]
      omega
    have hk4 : k ≤ 4 := by omega
    have hne : ¬ (c.take 4 = []) := by
      intro h
      rw [h] at hlen4
      simp at hlen4
      omega
    rw [readFrameServer]
    simp only [recv_cons, if_neg hne]
    rcases Nat.lt_or_ge k 4 with hklt | hkge
    · -- short first read: the header is completed with recv_exact
      have hlt : (c.take 4).length < 4 := by omega
      rw [if_pos hlt]
      have hsub : 4 - (c.take 4).length = 4 - k := by omega
      rw [hsub]
      obtain ⟨s2, heq2, hflat2, hwf2⟩ := recv_exact_spec (4 - k) _ hwf1 (by
        rw [hflat1, List.length_drop]
        omega)
      simp only [heq2]
      have hheader : c.take 4 ++ ((if (c.drop 4).isEmpty then cs else
          c.drop 4 :: cs).flatten).take (4 - k) = ((c :: cs) : ByteStream).flatten.take 4 := by
        rw [htake, hflat1]
        conv_rhs => rw [show (4 : Nat) = k + (4 - k) from by omega, List.take_add]
      rw [hheader]
      have hflat2' : s2.flatten = ((c :: cs) : ByteStream).flatten.drop 4 := by
        rw [hflat2, hflat1, List.drop_drop]
        congr 1
        omega
      obtain ⟨s3, heq3, hflat3, hwf3⟩ := recv_exact_spec
        (beNat (((c :: cs) : ByteStream).flatten.take 4)) s2 hwf2 (by
          rw [hflat2', List.length_drop]
          omega)
      simp only [heq3]
      refine ⟨s3, ?_, ?_, hwf3⟩
      · rw [hflat2']
      · rw [hflat3, hflat2', List.drop_drop]
    · -- the first read already returned all 4 header bytes
      have hlt : ¬ ((c.take 4).length < 4) := by omega
      rw [if_neg hlt]
      have hkeq : k = 4 := by omega
      have hheader : c.take 4 ++ ([] : List Nat) = ((c :: cs) : ByteStream).flatten.take 4 := by
        rw [List.append_nil, htake, hkeq]
      have hflat1' : (if (c.drop 4).isEmpty then cs else c.drop 4 :: cs).flatten =
          ((c :: cs) : ByteStream).flatten.drop 4 := by
        rw [hflat1, hkeq]
      obtain ⟨s3, heq3, hflat3, hwf3⟩ := recv_exact_spec
        (beNat (((c :: cs) : ByteStream).flatten.take 4)) _ hwf1 (by
          rw [hflat1', List.length_drop]
          omega)
      simp only [hheader, heq3]
      refine ⟨s3, ?_, ?_, hwf3⟩
      · rw [hflat1']
      · rw [hflat3, hflat1', List.drop_drop]

theorem readFrameServer_truncated (s : ByteStream) (hwf : streamWF s) (hne : s ≠ [])
    (hshort : s.flatten.length < 4 ∨
      (4 ≤ s.flatten.length ∧ s.flatten.length < 4 + beNat (s.flatten.take 4))) :
    ∃ s', readFrameServer s = (.truncated, s') := by
  cases s with
  | nil => exact absurd rfl hne
  | cons c cs =>
    have hcne : c ≠ [] := hwf c (by simp)
    have hwfcs : streamWF cs := fun d hd => hwf d (by simp [hd])
    obtain ⟨hflat1, hwf1, htake, hlen4⟩ := recv_tail_spec c cs hcne hwfcs 4 (by omega)
    set k := min 4 c.length with hkdef
    have hk1 : 1 ≤ k := by
      have : 0 < c.length := List.length_pos.mpr hcne
      simp only [hkdef]
      omega
    have hk4 : k ≤ 4 := by omega
    have hcle : c.length ≤ ((c :: cs) : ByteStream).flatten.length := by
      simp only [List.flatten_cons, List.length_append]
      omega
    have hnehd : ¬ (c.take 4 = []) := by
      intro h
      rw [h] at hlen4
      simp at hlen4
      omega
    rw [readFrameServer]
    simp only [recv_cons, if_neg hnehd]
    rcases hshort with hA | ⟨hB1, hB2⟩
    · -- fewer than 4 bytes in the whole stream: the header read cannot complete
      have hklt : k < 4 := by omega
      have hlt : (c.take 4).length < 4 := by omega
      rw [if_pos hlt]
      have hsub : 4 - (c.take 4).length = 4 - k := by omega
      rw [hsub]
      have hshort1 : ((if (c.drop 4).isEmpty then cs else c.drop 4 :: cs).flatten).length <
          4 - k := by
        rw [hflat1, List.length_drop]
        omega
      rw [recv_exact_short (4 - k) _ hwf1 hshort1]
      exact ⟨_, rfl⟩
    · -- the header completes but the payload read hits end of stream
      rcases Nat.lt_or_ge k 4 with hklt | hkge
      · have hlt : (c.take 4).length < 4 := by omega
        rw [if_pos hlt]
        have hsub : 4 - (c.take 4).length = 4 - k := by omega
        rw [hsub]
        obtain ⟨s2, heq2, hflat2, hwf2⟩ := recv_exact_spec (4 - k) _ hwf1 (by
          rw [hflat1, List.length_drop]
          omega)
        simp only [heq2]
        have hheader : c.take 4 ++ ((if (c.drop 4).isEmpty then cs else
            c.drop 4 :: cs).flatten).take (4 - k) = ((c :: cs) : ByteStream).flatten.take 4 := by
          rw [htake, hflat1]
          conv_rhs => rw [show (4 : Nat) = k + (4 - k) from by omega, List.take_add]
        rw [hheader]
        have hflat2' : s2.flatten = ((c :: cs) : ByteStream).flatten.drop 4 := by
          rw [hflat2, hflat1, List.drop_drop]
          congr 1
          omega
        rw [recv_exact_short _ _ hwf2 (by rw [hflat2', List.length_drop]; omega)]
        exact ⟨_, rfl⟩
      · have hlt : ¬ ((c.take 4).length < 4) := by omega
        rw [if_neg hlt]
        have hkeq : k = 4 := by omega
        have hheader : c.take 4 ++ ([] : List Nat) = ((c :: cs) : ByteStream).flatten.take 4 := by
          rw [List.append_nil, htake, hkeq]
        have hflat1' : (if (c.drop 4).isEmpty then cs else c.drop 4 :: cs).flatten =
            ((c :: cs) : ByteStream).flatten.drop 4 := by
          rw [hflat1, hkeq]
        simp only [hheader]
        rw [recv_exact_short _ _ hwf1 (by rw [hflat1', List.length_drop]; omega)]
        exact ⟨_, rfl⟩

/-! ## Chunkings of a byte sequence -/

theorem oneChunk_flatten (bs : List Nat) : (oneChunk bs).flatten = bs := by
  rw [oneChunk]
  split <;> simp_all

theorem oneChunk_wf (bs : List Nat) : streamWF (oneChunk bs) := by
  rw [oneChunk]
  split
  · intro c hc
    simp at hc
  · next h =>
    intro c hc
    simp only [List.mem_singleton] at hc
    subst hc
    exact h

theorem oneByteChunks_flatten (bs : List Nat) : (oneByteChunks bs).flatten = bs := by
  induction bs with
  | nil => rfl
  | cons b t ih =>
    simp only [oneByteChunks] at ih
    simp [oneByteChunks, ih]

theorem oneByteChunks_wf (bs : List Nat) : streamWF (oneByteChunks bs) := by
  intro c hc
  simp only [oneByteChunks, List.mem_map] at hc
  obtain ⟨b, _, rfl⟩ := hc
  simp

theorem beBytes_length (n : Nat) : (beBytes n).length = 4 := by simp [beBytes]

/-- The server frame reader on a stream carrying one whole frame followed
by anything: it recovers exactly the framed payload. -/
theorem readFrameServer_raw (p R : List Nat) (s : ByteStream) (hwf : streamWF s)
    (hflat : s.flatten = frameRaw p ++ R) (hfit : p.length < 4294967296) :
    ∃ s', readFrameServer s = (.frame p, s') ∧ s'.flatten = R ∧ streamWF s' := by
  have htake4 : s.flatten.take 4 = beBytes p.length := by
    rw [hflat, frameRaw, List.append_assoc, ← beBytes_length p.length]
    exact List.take_left _ _
  have hdrop4 : s.flatten.drop 4 = p ++ R := by
    rw [hflat, frameRaw, List.append_assoc, ← beBytes_length p.length]
    exact List.drop_left _ _
  have hbe : beNat (s.flatten.take 4) = p.length := by
    rw [htake4]
    exact beNat_beBytes _ hfit
  have hlentotal : s.flatten.length = 4 + p.length + R.length := by
    rw [hflat, frameRaw]
    simp [beBytes]
    omega
  have hlen : 4 + beNat (s.flatten.take 4) ≤ s.flatten.length := by
    rw [hbe]
    omega
  obtain ⟨s', heq, hfl, hwf'⟩ := readFrameServer_frame s hwf hlen
  have hpay : (s.flatten.drop 4).take (beNat (s.flatten.take 4)) = p := by
    rw [hdrop4, hbe]
    exact List.take_left _ _
  have hrest : s.flatten.drop (4 + beNat (s.flatten.take 4)) = R := by
    rw [hbe, ← List.drop_drop, hdrop4]
    exact List.drop_left _ _
  refine ⟨s', ?_, ?_, hwf'⟩
  · rw [heq, hpay]
  · rw [hfl, hrest]

/-- The client frame reader succeeds whenever the header arrives in the
first read (first chunk of at least 4 bytes) and the payload parses;
the payload may then be fragmented arbitrarily, since that read loops. -/
theorem recv_frame_spec (p R c : List Nat) (cs : ByteStream)
    (hwf : streamWF (c :: cs)) (h4 : 4 ≤ c.length)
    (hflat : ((c :: cs) : ByteStream).flatten = frameRaw p ++ R)
    (hfit : p.length < 4294967296) (o : Json) (hl : loadsBytes p = some o) :
    ∃ s', recv_frame (c :: cs) = .ok (o, s') ∧ s'.flatten = R ∧ streamWF s' := by
  have hcne : c ≠ [] := hwf c (by simp)
  have hwfcs : streamWF cs := fun d hd => hwf d (by simp [hd])
  obtain ⟨hflat1, hwf1, htake, hlen4⟩ := recv_tail_spec c cs hcne hwfcs 4 (by omega)
  have hkeq : min 4 c.length = 4 := by omega
  rw [hkeq] at hflat1 htake hlen4
  have htake4 : ((c :: cs) : ByteStream).flatten.take 4 = beBytes p.length := by
    rw [hflat, frameRaw, List.append_assoc, ← beBytes_length p.length]
    exact List.take_left _ _
  have hdrop4 : ((c :: cs) : ByteStream).flatten.drop 4 = p ++ R := by
    rw [hflat, frameRaw, List.append_assoc, ← beBytes_length p.length]
    exact List.drop_left _ _
  have hne : ¬ (c.take 4 = []) := by
    intro h
    rw [h] at hlen4
    simp at hlen4
  rw [recv_frame]
  simp only [recv_cons]
  rw [if_neg hne]
  have hhlen : (c.take 4).length = 4 := hlen4
  simp only [hhlen, Nat.lt_irrefl, ite_false, eq_self_iff_true, ite_true]
  have hmsg : beNat (c.take 4) = p.length := by
    rw [htake, htake4]
    exact beNat_beBytes _ hfit
  rw [hmsg]
  obtain ⟨s', heq, hfl, hwf'⟩ := recv_exact_spec p.length _ hwf1 (by
    rw [hflat1, hdrop4]
    simp only [List.length_append]
    omega)
  have hpay : (if (c.drop 4).isEmpty then cs else c.drop 4 :: cs).flatten.take p.length
      = p := by
    rw [hflat1, hdrop4]
    exact List.take_left _ _
  simp only [heq, hpay, hl]
  refine ⟨s', rfl, ?_, hwf'⟩
  rw [hfl, hflat1, hdrop4]
  exact List.drop_left _ _

/-! ## The per-connection handler on batches of framed documents -/

theorem handleDoc_ok (st : Store) (kvs : List (JStr × Json))
    (hins : st.insertFaults = []) (hupd : st.updateFaults = []) :
    handleDoc st (.obj kvs) = some (.ok st.nextId,
      { recs := st.recs.map
          (fun r => if r.rid = st.nextId then
            { r with
                processedAt := some (st.clock + 1)
                procResult := some (ConsumerTcp.process_document
                  (insertKey kvs receivedAtKey (.str (natDec st.clock)))) }
          else r) ++
          [⟨st.nextId, insertKey kvs receivedAtKey (.str (natDec st.clock)),
            some (st.clock + 1),
            some (ConsumerTcp.process_document
              (insertKey kvs receivedAtKey (.str (natDec st.clock))))⟩],
        nextId := st.nextId + 1, insertFaults := [], updateFaults := [],
        clock := st.clock + 2 }) := by
  simp [handleDoc, Store.insert_one, Store.update_one, hins, hupd]

theorem handleDoc_ok_ex (st : Store) (kvs : List (JStr × Json))
    (hins : st.insertFaults = []) (hupd : st.updateFaults = []) :
    ∃ st3, handleDoc st (.obj kvs) = some (.ok st.nextId, st3) ∧
      st3.recs.length = st.recs.length + 1 ∧ st3.nextId = st.nextId + 1 ∧
      st3.insertFaults = [] ∧ st3.updateFaults = [] :=
  ⟨_, handleDoc_ok st kvs hins hupd, by simp, rfl, rfl, rfl⟩

theorem handleDoc_updateFault (st : Store) (kvs : List (JStr × Json))
    (hins : st.insertFaults = []) (hupd : st.updateFaults = [true]) :
    handleDoc st (.obj kvs) = some (.err storageErrMsg,
      { recs := st.recs ++
          [⟨st.nextId, insertKey kvs receivedAtKey (.str (natDec st.clock)), none, none⟩],
        nextId := st.nextId + 1, insertFaults := [], updateFaults := [],
        clock := st.clock + 1 }) := by
  simp [handleDoc, Store.insert_one, Store.update_one, hins, hupd]

/-- `handle_client` on `N` well-formed framed documents with a fault-free
store: one `ok` ack per frame, in order, carrying the successive
storage-assigned identifiers, and one record persisted per frame. -/
theorem handleLoop_docs : ∀ (docs : List Json) (fuel : Nat) (s : ByteStream) (st : Store),
    (∀ d ∈ docs, wireDoc d = true) → streamWF s → s.flatten = framesOf docs →
    docs.length < fuel → st.insertFaults = [] → st.updateFaults = [] →
    (handleLoop fuel s st).1 =
        (List.range docs.length).map (fun i => Ack.ok (st.nextId + i)) ∧
      (handleLoop fuel s st).2.recs.length = st.recs.length + docs.length := by
  intro docs
  induction docs with
  | nil =>
    intro fuel s st _ hwf hflat hfuel _ _
    have hs : s = [] := streamWF_flatten_nil hwf (by rw [hflat]; rfl)
    subst hs
    cases fuel with
    | zero => simp at hfuel
    | succ f =>
      simp only [handleLoop, readFrameServer_nil]
      simp
  | cons d ds ih =>
    intro fuel s st hall hwf hflat hfuel hins hupd
    cases fuel with
    | zero => simp at hfuel
    | succ f =>
      have hwd : wireDoc d = true := hall d (by simp)
      obtain ⟨kvs, rfl⟩ : ∃ kvs, d = .obj kvs := by
        cases d <;> first
          | exact ⟨_, rfl⟩
          | simp [wireDoc] at hwd
      simp only [wireDoc, Bool.and_eq_true, decide_eq_true_eq] at hwd
      obtain ⟨hv, hfit⟩ := hwd
      obtain ⟨s', hrd, hfl', hwf'⟩ := readFrameServer_raw _ (framesOf ds) s hwf
        (by rw [hflat]; rfl) hfit
      obtain ⟨st3, hdoc, hlen3, hnext3, hins3, hupd3⟩ := handleDoc_ok_ex st kvs hins hupd
      obtain ⟨iha, ihl⟩ := ih f s' st3 (fun x hx => hall x (by simp [hx])) hwf' hfl'
        (by simp only [List.length_cons] at hfuel; omega) hins3 hupd3
      rcases hlp : handleLoop f s' st3 with ⟨acks, st'⟩
      rw [hlp] at iha ihl
      simp only at iha ihl
      simp only [handleLoop, hrd, loadsBytes_dumps _ hv, hdoc, hlp]
      constructor
      · simp only [iha, hnext3, List.length_cons, List.range_succ_eq_map,
          List.map_cons, List.map_map, Nat.add_zero]
        have hfeq : (fun i => Ack.ok (st.nextId + 1 + i)) =
            ((fun i => Ack.ok (st.nextId + i)) ∘ Nat.succ) := by
          funext i
          exact congrArg Ack.ok (by omega)
        rw [hfeq]
      · simp only [ihl, hlen3, List.length_cons]
        omega

/-- A malformed frame at the head of the stream: one error ack with the
fixed non-empty reason, the store untouched for that frame, and the loop
continuing over the following well-formed frames. -/
theorem handleLoop_badFrame (bad : List Nat) (hfitb : bad.length < 4294967296)
    (hbad : loadsBytes bad = none) (docs : List Json) (fuel : Nat) (s : ByteStream)
    (st : Store) (hall : ∀ d ∈ docs, wireDoc d = true) (hwf : streamWF s)
    (hflat : s.flatten = frameRaw bad ++ framesOf docs)
    (hfuel : docs.length + 1 < fuel)
    (hins : st.insertFaults = []) (hupd : st.updateFaults = []) :
    (handleLoop fuel s st).1 =
        .err invalidJsonMsg ::
          (List.range docs.length).map (fun i => Ack.ok (st.nextId + i)) ∧
      (handleLoop fuel s st).2.recs.length = st.recs.length + docs.length := by
  cases fuel with
  | zero => simp at hfuel
  | succ f =>
    obtain ⟨s', hrd, hfl', hwf'⟩ := readFrameServer_raw bad (framesOf docs) s hwf hflat hfitb
    obtain ⟨iha, ihl⟩ := handleLoop_docs docs f s' st hall hwf' hfl' (by omega) hins hupd
    rcases hlp : handleLoop f s' st with ⟨acks, st'⟩
    rw [hlp] at iha ihl
    simp only at iha ihl
    simp only [handleLoop, hrd, hbad, hlp]
    exact ⟨by rw [iha], by rw [ihl]⟩

/-! ## Producer send loop and reconnect backoff -/

theorem countSends_append (i : Nat) (l1 l2 : List Producer.PEv) :
    countSends i (l1 ++ l2) = countSends i l1 + countSends i l2 := by
  induction l1 with
  | nil => simp [countSends]
  | cons e t ih =>
    cases e with
    | send j =>
      simp [countSends, ih]
      omega
    | reconnect => simp [countSends, ih]

theorem sendTrace_countSends_lt (i : Nat) :
    ∀ (n start : Nat) (faults : List Bool), i < start →
      countSends i (Producer.sendTrace start n faults) = 0 := by
  intro n
  induction n with
  | zero => intro start faults _; rfl
  | succ m ih =>
    intro start faults hi
    by_cases h : faults.headD false = true
    · simp only [Producer.sendTrace, Producer.sendSegment, h, eq_self_iff_true, ite_true,
        countSends_append, countSends]
      rw [if_neg (by omega), ih (start + 1) faults.tail.tail (by omega)]
    · simp only [Producer.sendTrace, Producer.sendSegment, h, Bool.false_eq_true,
        ite_false, countSends_append, countSends]
      rw [if_neg (by omega), ih (start + 1) faults.tail (by omega)]

theorem sendTrace_countSends (i : Nat) :
    ∀ (n start : Nat) (faults : List Bool), start ≤ i → i < start + n →
      1 ≤ countSends i (Producer.sendTrace start n faults) ∧
        countSends i (Producer.sendTrace start n faults) ≤ 2 := by
  intro n
  induction n with
  | zero => intro start faults h1 h2; omega
  | succ m ih =>
    intro start faults h1 h2
    rcases Nat.lt_or_ge i (start + 1) with hlt | hge
    · have hieq : start = i := by omega
      subst hieq
      have h0 : countSends start (Producer.sendTrace (start + 1) m faults.tail.tail) = 0 :=
        sendTrace_countSends_lt start m (start + 1) faults.tail.tail (by omega)
      have h1' : countSends start (Producer.sendTrace (start + 1) m faults.tail) = 0 :=
        sendTrace_countSends_lt start m (start + 1) faults.tail (by omega)
      by_cases h : faults.headD false = true
      · simp only [Producer.sendTrace, Producer.sendSegment, h, eq_self_iff_true, ite_true,
          countSends_append, countSends, h0]
        omega
      · simp only [Producer.sendTrace, Producer.sendSegment, h, Bool.false_eq_true,
          eq_self_iff_true, ite_true, ite_false, countSends_append, countSends, h1']
        omega
    · by_cases h : faults.headD false = true
      · simp only [Producer.sendTrace, Producer.sendSegment, h, eq_self_iff_true, ite_true,
          countSends_append, countSends]
        rw [if_neg (by omega)]
        have hih := ih (start + 1) faults.tail.tail (by omega) (by omega)
        omega
      · simp only [Producer.sendTrace, Producer.sendSegment, h, Bool.false_eq_true,
          ite_false, countSends_append, countSends]
        rw [if_neg (by omega)]
        have hih := ih (start + 1) faults.tail (by omega) (by omega)
        omega

theorem one_le_two_pow_rat (i : Nat) : (1 : Rat) ≤ 2 ^ i := by
  induction i with
  | zero => norm_num
  | succ j ih =>
    rw [pow_succ]
    nlinarith

theorem backoffDelays_closed : ∀ (J : Nat) (b c : Rat), 0 ≤ b → b ≤ c →
    Producer.backoffDelays J b c = (List.range J).map (fun i => min c (2 ^ i * b)) := by
  intro J
  induction J with
  | zero => intro b c _ _; rfl
  | succ j ih =>
    intro b c hb hbc
    rw [Producer.backoffDelays, List.range_succ_eq_map, List.map_cons, List.map_map]
    congr 1
    · rw [pow_zero, one_mul, min_eq_right hbc]
    · rw [ih (min c (b * 2)) c (le_min (le_trans hb hbc) (by linarith)) (min_le_left _ _)]
      have hfeq : (fun i => min c (2 ^ i * min c (b * 2))) =
          ((fun i => min c (2 ^ i * b)) ∘ Nat.succ) := by
        funext i
        show min c (2 ^ i * min c (b * 2)) = min c (2 ^ (i + 1) * b)
        rcases le_total (b * 2) c with hcase | hcase
        · rw [min_eq_right hcase, pow_succ]
          congr 1
          ring
        · have h2i := one_le_two_pow_rat i
          have hc0 : (0 : Rat) ≤ c := le_trans hb hbc
          rw [min_eq_left hcase]
          have hc1 : c ≤ 2 ^ i * c := by
            calc c = 1 * c := (one_mul c).symm
            _ ≤ 2 ^ i * c := mul_le_mul_of_nonneg_right h2i hc0
          have hc2 : c ≤ 2 ^ (i + 1) * b := by
            calc c ≤ b * 2 := hcase
            _ = 1 * (b * 2) := (one_mul _).symm
            _ ≤ 2 ^ i * (b * 2) := mul_le_mul_of_nonneg_right h2i (by linarith)
            _ = 2 ^ (i + 1) * b := by rw [pow_succ]; ring
          rw [min_eq_left hc1, min_eq_left hc2]
      rw [hfeq]

/-! ## SSE broadcast fan-out -/

theorem broadcast_length (m : JStr) (clients : List Threaded.Channel) :
    (Threaded.broadcast_to_clients m clients).length = clients.length := by
  simp [Threaded.broadcast_to_clients]

theorem broadcast_get (m : JStr) (clients : List Threaded.Channel) (i : Nat)
    (hi : i < clients.length) :
    (Threaded.broadcast_to_clients m clients).get
        ⟨i, by rw [broadcast_length]; exact hi⟩ =
      (if (clients.get ⟨i, hi⟩).isFull then clients.get ⟨i, hi⟩
       else { clients.get ⟨i, hi⟩ with
                buf := (clients.get ⟨i, hi⟩).buf ++ [m] }) := by
  simp [Threaded.broadcast_to_clients, Threaded.put_nowait, List.get_eq_getElem,
    List.getElem_map]

theorem registerK_replicate (K : Nat) :
    Threaded.registerK K = List.replicate K ⟨200, []⟩ := by
  induction K with
  | zero => rfl
  | succ k ih =>
    rw [Threaded.registerK, ih, Threaded.registerClient, ← List.replicate_succ']

theorem broadcast_registerK (m : JStr) (K : Nat) :
    Threaded.broadcast_to_clients m (Threaded.registerK K) =
      List.replicate K ⟨200, [m]⟩ := by
  rw [registerK_replicate, Threaded.broadcast_to_clients, List.map_replicate]
  rfl

/-! ## The two enrichment implementations -/

theorem to_number_eq_numVal (v : Json)
    (hs : ∀ s, v = .str s → PollConsumer.to_number v = none) :
    PollConsumer.to_number v = ConsumerTcp.numVal v := by
  cases v with
  | str s =>
    rw [hs s rfl]
    rfl
  | null => rfl
  | bool b => rfl
  | num n => rfl
  | arr xs => rfl
  | obj kvs => rfl

theorem filterMap_gen_congr (kvs : List (JStr × Json))
    (h : ∀ kv ∈ kvs, isGen kv.1 = true →
      PollConsumer.to_number kv.2 = ConsumerTcp.numVal kv.2) :
    kvs.filterMap (fun kv => if isGen kv.1 then PollConsumer.to_number kv.2 else none) =
      kvs.filterMap (fun kv => if isGen kv.1 then ConsumerTcp.numVal kv.2 else none) := by
  induction kvs with
  | nil => rfl
  | cons kv t ih =>
    have harg : (if isGen kv.1 then PollConsumer.to_number kv.2 else none) =
        (if isGen kv.1 then ConsumerTcp.numVal kv.2 else none) := by
      by_cases hg : isGen kv.1
      · rw [if_pos hg, if_pos hg, h kv (List.mem_cons_self kv t) hg]
      · rw [if_neg hg, if_neg hg]
    simp only [List.filterMap_cons, harg, ih (fun x hx => h x (by simp [hx]))]

theorem process_document_agree (kvs : List (JStr × Json))
    (h : ∀ kv ∈ kvs, isGen kv.1 = true →
      PollConsumer.to_number kv.2 = ConsumerTcp.numVal kv.2) :
    PollConsumer.process_document kvs = ConsumerTcp.process_document kvs := by
  simp only [PollConsumer.process_document, ConsumerTcp.process_document]
  rw [filterMap_gen_congr kvs h]

/-! ## Small evaluation helpers -/

theorem utf8Decode_nil : utf8Decode [] = some [] := by
  rw [utf8Decode.eq_def]

theorem loadsBytes_nil : loadsBytes [] = none := by
  rw [loadsBytes, utf8Decode_nil]
  simp [loads, parseVal]

theorem okIds_map_ok (f : Nat → Nat) (l : List Nat) :
    okIds (l.map (fun i => Ack.ok (f i))) = l.map f := by
  induction l with
  | nil => rfl
  | cons x xs ih =>
    simp only [List.map_cons, okIds, List.filterMap_cons] at ih ⊢
    rw [ih]

/-! ## The claims -/

/-- C1 (corrected): partial-read insensitivity holds for the server-side
decoder — `handle_client` loops via `recv_exact` until the exact byte
count arrives, so byte-at-a-time delivery of a framed message equals
whole-chunk delivery — and for the client's payload phase; but
`recv_frame` completes a short header with a single extra read instead of
looping, so on the client side the property requires the 4-byte header
to arrive in the first read. -/
theorem C1_partial_read_robustness (p : List Nat) (hfit : p.length < 4294967296) :
    readFrameServer (oneByteChunks (frameRaw p)) = (.frame p, []) ∧
      readFrameServer (oneChunk (frameRaw p)) = (.frame p, []) ∧
      ∀ o, loadsBytes p = some o → recv_frame (oneChunk (frameRaw p)) = .ok (o, []) := by
  have hne : frameRaw p ≠ [] := by simp [frameRaw, beBytes]
  refine ⟨?_, ?_, ?_⟩
  · obtain ⟨s', heq, hfl, hwf'⟩ := readFrameServer_raw p [] (oneByteChunks (frameRaw p))
      (oneByteChunks_wf _) (by rw [oneByteChunks_flatten, List.append_nil]) hfit
    rw [heq, streamWF_flatten_nil hwf' hfl]
  · obtain ⟨s', heq, hfl, hwf'⟩ := readFrameServer_raw p [] (oneChunk (frameRaw p))
      (oneChunk_wf _) (by rw [oneChunk_flatten, List.append_nil]) hfit
    rw [heq, streamWF_flatten_nil hwf' hfl]
  · intro o hl
    rw [show oneChunk (frameRaw p) = [frameRaw p] from by rw [oneChunk, if_neg hne]]
    obtain ⟨s', heq, hfl, hwf'⟩ := recv_frame_spec p [] (frameRaw p) []
      (by intro c hc; simp only [List.mem_singleton] at hc; subst hc; exact hne)
      (by simp only [frameRaw, List.length_append, beBytes, List.length_cons,
        List.length_nil]; omega)
      (by simp) hfit o hl
    rw [heq, streamWF_flatten_nil hwf' hfl]

/-- C1 counterexample: the framed empty JSON object (`{}`) delivered one
byte at a time: the server decoder still yields the payload, and the
whole frame in one chunk decodes fine on the client, but `recv_frame`
fails with `struct.error` on byte-at-a-time delivery, having completed
only 2 of the 4 header bytes. -/
theorem C1_counterexample :
    readFrameServer (oneByteChunks (frameRaw [123, 125])) = (.frame [123, 125], []) ∧
      recv_frame (oneChunk (frameRaw [123, 125])) = .ok (Json.obj [], []) ∧
      recv_frame (oneByteChunks (frameRaw [123, 125])) = .error .structError := by
  refine ⟨?_, ?_, rfl⟩
  · obtain ⟨s', heq, hfl, hwf'⟩ := readFrameServer_raw [123, 125] []
      (oneByteChunks (frameRaw [123, 125])) (oneByteChunks_wf _)
      (by rw [oneByteChunks_flatten, List.append_nil]) (by decide)
    rw [heq, streamWF_flatten_nil hwf' hfl]
  · have hl : loadsBytes [123, 125] = some (Json.obj []) := by
      rw [show ([123, 125] : List Nat) = utf8Encode (dumps (Json.obj [])) from rfl]
      exact loadsBytes_dumps (Json.obj []) (by decide)
    rw [show oneChunk (frameRaw [123, 125]) = [frameRaw [123, 125]] from rfl]
    obtain ⟨s', heq, hfl, hwf'⟩ := recv_frame_spec [123, 125] [] (frameRaw [123, 125]) []
      (by intro c hc; simp only [List.mem_singleton] at hc; subst hc; decide)
      (by decide) rfl (by decide) (Json.obj []) hl
    rw [heq, streamWF_flatten_nil hwf' hfl]

theorem C1_partial_read_robustness_witness :
    readFrameServer (oneByteChunks (frameRaw [97])) = (.frame [97], []) ∧
      readFrameServer (oneChunk (frameRaw [97])) = (.frame [97], []) ∧
      ∀ o, loadsBytes [97] = some o → recv_frame (oneChunk (frameRaw [97])) = .ok (o, []) :=
  C1_partial_read_robustness [97] (by decide)

/-- C2 (confirmed): for a valid JSON object value whose UTF-8 encoding
fits the 32-bit length prefix, `send_frame` produces a frame that both
the server-side decoder and `recv_frame` turn back into the original
value. -/
theorem C2_frame_roundtrip (o : Json) (hv : o.valid = true)
    (hfit : (utf8Encode (dumps o)).length < 4294967296) :
    ∃ frame, send_frame o = some frame ∧
      readFrameServer (oneChunk frame) = (.frame (utf8Encode (dumps o)), []) ∧
      recv_frame (oneChunk frame) = .ok (o, []) := by
  have hne : frameRaw (utf8Encode (dumps o)) ≠ [] := by simp [frameRaw, beBytes]
  refine ⟨frameRaw (utf8Encode (dumps o)), ?_, ?_, ?_⟩
  · simp only [send_frame]
    rw [if_pos hfit]
    rfl
  · obtain ⟨s', heq, hfl, hwf'⟩ := readFrameServer_raw (utf8Encode (dumps o)) []
      (oneChunk (frameRaw (utf8Encode (dumps o)))) (oneChunk_wf _)
      (by rw [oneChunk_flatten, List.append_nil]) hfit
    rw [heq, streamWF_flatten_nil hwf' hfl]
  · rw [show oneChunk (frameRaw (utf8Encode (dumps o))) =
        [frameRaw (utf8Encode (dumps o))] from by rw [oneChunk, if_neg hne]]
    obtain ⟨s', heq, hfl, hwf'⟩ := recv_frame_spec (utf8Encode (dumps o)) []
      (frameRaw (utf8Encode (dumps o))) []
      (by intro c hc; simp only [List.mem_singleton] at hc; subst hc; exact hne)
      (by simp only [frameRaw, List.length_append, beBytes, List.length_cons,
        List.length_nil]; omega)
      (by simp) hfit o (loadsBytes_dumps o hv)
    rw [heq, streamWF_flatten_nil hwf' hfl]

theorem C2_frame_roundtrip_witness :
    ∃ frame, send_frame (Json.obj [("id".toList, .str "x".toList)]) = some frame ∧
      readFrameServer (oneChunk frame) =
        (.frame (utf8Encode (dumps (Json.obj [("id".toList, .str "x".toList)]))), []) ∧
      recv_frame (oneChunk frame) = .ok (Json.obj [("id".toList, .str "x".toList)], []) :=
  C2_frame_roundtrip (Json.obj [("id".toList, .str "x".toList)]) (by decide) (by decide)

/-- C3 (confirmed): the server-side decoder signals a clean EOF when the
stream yields zero bytes on the very first read of a frame, signals a
truncation — a result distinct from clean closure — when the stream ends
mid-header or mid-payload, and both end the read loop. -/
theorem C3_close_vs_truncation (s : ByteStream) (hwf : streamWF s) :
    (s = [] → readFrameServer s = (.closed, [])) ∧
      (s ≠ [] → s.flatten.length < 4 + beNat (s.flatten.take 4) →
        ∃ s', readFrameServer s = (.truncated, s')) ∧
      SrvRead.closed ≠ SrvRead.truncated := by
  refine ⟨?_, ?_, ?_⟩
  · rintro rfl
    exact readFrameServer_nil
  · intro hne hshort
    apply readFrameServer_truncated s hwf hne
    rcases Nat.lt_or_ge s.flatten.length 4 with h | h
    · exact Or.inl h
    · exact Or.inr ⟨h, hshort⟩
  · intro h
    exact SrvRead.noConfusion h

theorem C3_close_vs_truncation_witness :
    (([[(0 : Nat)]] : ByteStream) = [] → readFrameServer [[0]] = (.closed, [])) ∧
      (([[(0 : Nat)]] : ByteStream) ≠ [] →
        (([[(0 : Nat)]] : ByteStream)).flatten.length <
          4 + beNat ((([[(0 : Nat)]] : ByteStream)).flatten.take 4) →
        ∃ s', readFrameServer [[0]] = (.truncated, s')) ∧
      SrvRead.closed ≠ SrvRead.truncated :=
  C3_close_vs_truncation [[0]]
    (by intro c hc; simp only [List.mem_singleton] at hc; subst hc; decide)

/-- C4 (confirmed): over any batch of well-formed framed documents on one
connection with a fault-free store, the handler sends exactly one ack per
frame, in frame order, and the ok-acks carry pairwise distinct
storage-assigned identifiers. -/
theorem C4_ack_discipline (docs : List Json) (fuel : Nat) (s : ByteStream) (st : Store)
    (hall : ∀ d ∈ docs, wireDoc d = true) (hwf : streamWF s)
    (hflat : s.flatten = framesOf docs) (hfuel : docs.length < fuel)
    (hins : st.insertFaults = []) (hupd : st.updateFaults = []) :
    (handleLoop fuel s st).1 =
        (List.range docs.length).map (fun i => Ack.ok (st.nextId + i)) ∧
      (handleLoop fuel s st).1.length = docs.length ∧
      (okIds (handleLoop fuel s st).1).Nodup := by
  obtain ⟨ha, _⟩ := handleLoop_docs docs fuel s st hall hwf hflat hfuel hins hupd
  refine ⟨ha, ?_, ?_⟩
  · rw [ha, List.length_map, List.length_range]
  · rw [ha, okIds_map_ok (fun i => st.nextId + i) (List.range docs.length)]
    exact List.Nodup.map (fun a b hab => by omega) (List.nodup_range _)

theorem C4_ack_discipline_witness :
    (handleLoop 2 (oneChunk (framesOf [Json.obj []])) ⟨[], 5, [], [], 0⟩).1 =
        (List.range 1).map (fun i => Ack.ok (5 + i)) ∧
      (handleLoop 2 (oneChunk (framesOf [Json.obj []])) ⟨[], 5, [], [], 0⟩).1.length = 1 ∧
      (okIds (handleLoop 2 (oneChunk (framesOf [Json.obj []])) ⟨[], 5, [], [], 0⟩).1).Nodup :=
  C4_ack_discipline [Json.obj []] 2 (oneChunk (framesOf [Json.obj []]))
    ⟨[], 5, [], [], 0⟩ (by decide) (oneChunk_wf _) (oneChunk_flatten _) (by decide) rfl rfl

/-- C5 (confirmed): a frame whose payload is not valid JSON draws exactly
one ack, an error ack with the fixed non-empty reason; nothing is
inserted into storage for that frame, and the loop continues, the
connection remaining usable for the subsequent valid frames. -/
theorem C5_malformed_recoverable (bad : List Nat) (hfitb : bad.length < 4294967296)
    (hbad : loadsBytes bad = none) (docs : List Json) (fuel : Nat) (s : ByteStream)
    (st : Store) (hall : ∀ d ∈ docs, wireDoc d = true) (hwf : streamWF s)
    (hflat : s.flatten = frameRaw bad ++ framesOf docs)
    (hfuel : docs.length + 1 < fuel)
    (hins : st.insertFaults = []) (hupd : st.updateFaults = []) :
    (handleLoop fuel s st).1 =
        .err invalidJsonMsg ::
          (List.range docs.length).map (fun i => Ack.ok (st.nextId + i)) ∧
      (handleLoop fuel s st).2.recs.length = st.recs.length + docs.length ∧
      invalidJsonMsg ≠ [] := by
  obtain ⟨h1, h2⟩ := handleLoop_badFrame bad hfitb hbad docs fuel s st hall hwf hflat
    hfuel hins hupd
  exact ⟨h1, h2, by decide⟩

theorem C5_malformed_recoverable_witness :
    (handleLoop 3 (oneChunk (frameRaw [] ++ framesOf [Json.obj []]))
          ⟨[], 0, [], [], 0⟩).1 =
        .err invalidJsonMsg :: (List.range 1).map (fun i => Ack.ok (0 + i)) ∧
      (handleLoop 3 (oneChunk (frameRaw [] ++ framesOf [Json.obj []]))
          ⟨[], 0, [], [], 0⟩).2.recs.length = 0 + 1 ∧
      invalidJsonMsg ≠ [] :=
  C5_malformed_recoverable [] (by decide) loadsBytes_nil [Json.obj []] 3
    (oneChunk (frameRaw [] ++ framesOf [Json.obj []])) ⟨[], 0, [], [], 0⟩
    (by decide) (oneChunk_wf _) (oneChunk_flatten _) (by decide) rfl rfl

/-- C6 (corrected): with initial backoff `b` and the ceiling `c`, the
sleep delays over `J` consecutive connection failures follow
`min(c, 2^j * b)` only under the precondition `b ≤ c`: the first delay is
the raw initial backoff, never capped, and doubling is capped from the
second delay on.  In the program the ceiling is the fixed default 60.0 —
`main` never passes `max_backoff` and `parse_args` offers no option for
it — so only the initial backoff is a configuration input. -/
theorem C6_backoff_growth (J : Nat) (b c : Rat) (hb : 0 ≤ b) (hbc : b ≤ c) :
    Producer.backoffDelays J b c = (List.range J).map (fun i => min c (2 ^ i * b)) :=
  backoffDelays_closed J b c hb hbc

/-- C6 counterexample: initial backoff 120 against the fixed ceiling 60:
the delay before the first retry is 120, above the ceiling, where the
claimed formula `min(c, 2^(j-1)·b)` yields 60. -/
theorem C6_counterexample :
    Producer.backoffDelays 1 120 Producer.defaultMaxBackoff = [120] ∧
      ¬ ((120 : Rat) ≤ Producer.defaultMaxBackoff) := by
  refine ⟨rfl, ?_⟩
  rw [Producer.defaultMaxBackoff]
  norm_num

theorem C6_backoff_growth_witness :
    Producer.backoffDelays 3 1 Producer.defaultMaxBackoff =
      (List.range 3).map (fun i => min Producer.defaultMaxBackoff (2 ^ i * 1)) :=
  C6_backoff_growth 3 1 Producer.defaultMaxBackoff (by norm_num)
    (by rw [Producer.defaultMaxBackoff]; norm_num)

/-- C7 (confirmed): in the producer's send loop every in-range document is
put on the wire at least once and at most twice, and one document's
events are either a single send or send–reconnect–send: the failed
message is retried exactly once immediately after reconnection, then
abandoned. -/
theorem C7_resend_policy (start n : Nat) (faults : List Bool) (i : Nat)
    (h1 : start ≤ i) (h2 : i < start + n) :
    (1 ≤ countSends i (Producer.sendTrace start n faults) ∧
        countSends i (Producer.sendTrace start n faults) ≤ 2) ∧
      ∀ fs : List Bool, (Producer.sendSegment i fs).1 = [.send i] ∨
        (Producer.sendSegment i fs).1 = [.send i, .reconnect, .send i] := by
  refine ⟨sendTrace_countSends i n start faults h1 h2, ?_⟩
  intro fs
  rw [Producer.sendSegment]
  by_cases h : fs.headD false = true
  · rw [if_pos h]
    right
    rfl
  · rw [if_neg h]
    left
    rfl

theorem C7_resend_policy_witness :
    (1 ≤ countSends 0 (Producer.sendTrace 0 2 [true]) ∧
        countSends 0 (Producer.sendTrace 0 2 [true]) ≤ 2) ∧
      ∀ fs : List Bool, (Producer.sendSegment 0 fs).1 = [.send 0] ∨
        (Producer.sendSegment 0 fs).1 = [.send 0, .reconnect, .send 0] :=
  C7_resend_policy 0 2 [true] 0 (by decide) (by decide)

/-- C8 (confirmed): a broadcast pushes the message to every registered
channel without blocking or raising: the channel list is preserved
element by element, a full channel is left unchanged — the message is
dropped for that subscriber only — a non-full channel receives the
message at the tail of its queue, and after registering `K` fresh
subscribers all `K` capacity-200 queues receive the message. -/
theorem C8_broadcast_fanout (m : JStr) (clients : List Threaded.Channel) :
    (Threaded.broadcast_to_clients m clients).length = clients.length ∧
      (∀ i : Fin clients.length,
        (Threaded.broadcast_to_clients m clients).get
            ⟨i.1, by rw [broadcast_length]; exact i.2⟩ =
          if (clients.get i).isFull then clients.get i
          else { clients.get i with buf := (clients.get i).buf ++ [m] }) ∧
      ∀ K, Threaded.broadcast_to_clients m (Threaded.registerK K) =
        List.replicate K ⟨200, [m]⟩ := by
  refine ⟨broadcast_length m clients, ?_, broadcast_registerK m⟩
  intro i
  exact broadcast_get m clients i.1 i.2

/-- C9 (corrected): the two enrichment implementations agree on every
document whose `gen_`-prefixed fields hold no string values — the
implementations differ only in string coercion, `src/tcp/consumer.py`
converting numeric strings through `to_number` while
`src/consumer_tcp.py` counts only `int`/`float` instances — and they
disagree on numeric strings under a `gen_` key, plain (`"5"`),
scientific (`"1e5"`, `"1.5e3"`) or underscore-grouped (`"1_0"`) alike. -/
theorem C9_enrichment_agreement (kvs : List (JStr × Json))
    (h : ∀ kv ∈ kvs, isGen kv.1 = true → isStr kv.2 = false) :
    PollConsumer.process_document kvs = ConsumerTcp.process_document kvs := by
  apply process_document_agree
  intro kv hkv hg
  apply to_number_eq_numVal
  intro s hs
  have hne := h kv hkv hg
  rw [hs] at hne
  simp [isStr] at hne

/-- C9 counterexample: on `{"gen_1": v}` with `v` any of the strings
`"5"`, `"1e5"` or `"1_0"` — all of which Python's `to_number` converts —
the poll consumer reports `numeric_count` 1 where the TCP consumer
reports 0, so the summaries differ. -/
theorem C9_counterexample :
    (PollConsumer.process_document [("gen_1".toList, Json.str "5".toList)] ≠
        ConsumerTcp.process_document [("gen_1".toList, Json.str "5".toList)]) ∧
      (PollConsumer.process_document [("gen_1".toList, Json.str "1e5".toList)] ≠
        ConsumerTcp.process_document [("gen_1".toList, Json.str "1e5".toList)]) ∧
      (PollConsumer.process_document [("gen_1".toList, Json.str "1_0".toList)] ≠
        ConsumerTcp.process_document [("gen_1".toList, Json.str "1_0".toList)]) ∧
      PollConsumer.to_number (Json.str "1_0".toList) = some ((10 : Int) : Rat) ∧
      (PollConsumer.to_number (Json.str "1e5".toList)).isSome = true ∧
      (PollConsumer.to_number (Json.str "1.5e3".toList)).isSome = true := by
  exact ⟨by decide, by decide, by decide, by decide, by decide, by decide⟩

theorem C9_enrichment_agreement_witness :
    PollConsumer.process_document
        [("gen_a".toList, Json.num 3), ("note".toList, Json.str "5".toList)] =
      ConsumerTcp.process_document
        [("gen_a".toList, Json.num 3), ("note".toList, Json.str "5".toList)] :=
  C9_enrichment_agreement
    [("gen_a".toList, Json.num 3), ("note".toList, Json.str "5".toList)] (by decide)

/-- C10 (confirmed): when the insert succeeds but the enrichment update
raises, the handler acks status=error even though the record — stamped
with `_receivedAt` — is already persisted; the insert is not rolled
back on the error path. -/
theorem C10_error_ack_persisted (kvs : List (JStr × Json)) (fuel : Nat) (s : ByteStream)
    (st : Store) (hwd : wireDoc (.obj kvs) = true) (hwf : streamWF s)
    (hflat : s.flatten = framesOf [.obj kvs]) (hfuel : 1 < fuel)
    (hins : st.insertFaults = []) (hupd : st.updateFaults = [true]) :
    (handleLoop fuel s st).1 = [.err storageErrMsg] ∧
      (handleLoop fuel s st).2.recs = st.recs ++
        [⟨st.nextId, insertKey kvs receivedAtKey (.str (natDec st.clock)), none, none⟩] := by
  simp only [wireDoc, Bool.and_eq_true, decide_eq_true_eq] at hwd
  obtain ⟨hv, hfit⟩ := hwd
  obtain ⟨f, rfl⟩ : ∃ f, fuel = f + 2 := ⟨fuel - 2, by omega⟩
  obtain ⟨s', hrd, hfl, hwf'⟩ := readFrameServer_raw (utf8Encode (dumps (.obj kvs)))
    (framesOf []) s hwf (by rw [hflat]; rfl) hfit
  have hs' : s' = [] := streamWF_flatten_nil hwf' hfl
  subst hs'
  simp only [handleLoop, hrd, loadsBytes_dumps _ hv,
    handleDoc_updateFault st kvs hins hupd, readFrameServer_nil]
  exact ⟨trivial, trivial⟩

theorem C10_error_ack_persisted_witness :
    (handleLoop 2 (oneChunk (framesOf [Json.obj []])) ⟨[], 0, [], [true], 0⟩).1 =
        [.err storageErrMsg] ∧
      (handleLoop 2 (oneChunk (framesOf [Json.obj []])) ⟨[], 0, [], [true], 0⟩).2.recs =
        [] ++ [⟨0, insertKey [] receivedAtKey (.str (natDec 0)), none, none⟩] :=
  C10_error_ack_persisted [] 2 (oneChunk (framesOf [Json.obj []])) ⟨[], 0, [], [true], 0⟩
    (by decide) (oneChunk_wf _) (oneChunk_flatten _) (by decide) rfl rfl
